import Mathlib

/-!
Verification development for the Pomodoro task-list application
(`pomodoro/routes/home.py`, `pomodoro/routes/lists.py`).

The database tables are embedded shallowly:

* a row of the `tasks` table is a `Task`; the materialized-path string
  `"1/4/9"` is represented by its list of `/`-separated id tokens
  `[1, 4, 9]` (the source only ever builds paths with
  `f"{parent_path}/{id}"` and reads them with `path.split('/')`, and
  decimal tokens never contain `/`, so the two representations are in
  bijection; where the SQL compares path strings directly — the
  `ORDER BY path` of the hierarchy query — the joined string is
  reconstructed with `pathChars` and compared byte-wise as SQLite does);
* a row of the `lists` table is a `ListRow`; timestamps are integers
  (seconds), `None`-able columns are `Option`;
* each request handler becomes a function from the table contents (plus
  the current time `now` and the fresh row id the database would
  allocate) to the table contents after the request's `db.commit()`;
  a handler that answers an error without committing, or whose
  exception handler rolls the transaction back, returns `Except.error`
  and the caller keeps the unchanged table;
* the unbounded recursion of `update_descendants_paths` is given fuel;
  exhausting the fuel models the non-terminating recursion (Python's
  `RecursionError`, caught by the routes' `except` blocks, which roll
  back), and is reported as the routes' "Database error" answer.
-/

namespace Pomodoro

/-- A row of the `tasks` table (`schema` columns used by the routes). -/
structure Task where
  id : Nat
  listId : Nat
  userId : Nat
  content : String
  position : Int
  parent : Option Nat
  level : Nat
  path : List Nat
  isDone : Bool
  tags : List String
  deriving DecidableEq

/-- A row of the `lists` table (name/description plus the six timer fields). -/
structure ListRow where
  id : Nat
  userId : Nat
  name : String
  description : String
  isActive : Bool
  timer_state : String
  current_phase : Option String
  timer_remaining : Int
  timer_started_at : Option Int
  timer_last_updated : Option Int
  sessions_completed : Nat
  pomo_session : Int
  pomo_short_break : Int
  pomo_long_break : Int
  deriving DecidableEq

/-- The three running timer states (`('session', 'short_break', 'long_break')`). -/
def isRunning (s : String) : Bool :=
  s == "session" || s == "short_break" || s == "long_break"

/-- `calculate_remaining_time` (home.py): remaining seconds derived from the
stored snapshot and the wall clock; idle/paused (or missing/unparsable start
timestamp) falls back to the stored snapshot. -/
def calculate_remaining_time (row : ListRow) (now : Int) : Int :=
  if row.timer_started_at = none ∨ row.timer_state = "idle" ∨ row.timer_state = "paused" then
    row.timer_remaining
  else
    match row.timer_started_at with
    | none => row.timer_remaining
    | some started_at => max 0 (row.timer_remaining - (now - started_at))

/-- The `timer_remaining` field of the `/timer/status` response. -/
def get_timer_status_remaining (row : ListRow) (now : Int) : Int :=
  calculate_remaining_time row now

/-- `get_next_phase` (home.py): next phase and session count for `skip`. -/
def get_next_phase (current_state : String) (sessions_completed : Nat) : String × Nat :=
  if current_state = "session" then
    if (sessions_completed + 1) % 4 = 0 then ("long_break", sessions_completed + 1)
    else ("short_break", sessions_completed + 1)
  else if current_state = "paused" then
    if sessions_completed % 4 = 0 then ("short_break", sessions_completed + 1)
    else if sessions_completed % 4 = 1 then ("session", sessions_completed)
    else if sessions_completed % 4 = 2 then ("short_break", sessions_completed + 1)
    else if sessions_completed % 4 = 3 then ("session", sessions_completed)
    else ("session", sessions_completed)
  else if current_state = "short_break" ∨ current_state = "long_break" then
    ("session", sessions_completed)
  else
    ("session", sessions_completed)

/-- The per-phase duration used by `update_timer_state` when no explicit
remaining time is passed (`update_data['current_phase']` lookup). -/
def phaseDuration (row : ListRow) (phase : Option String) : Option Int :=
  if phase = some "session" then some (row.pomo_session * 60)
  else if phase = some "short_break" then some (row.pomo_short_break * 60)
  else if phase = some "long_break" then some (row.pomo_long_break * 60)
  else none

/-- `update_timer_state` (home.py): builds the `update_data` dictionary and
applies it to the list row.  A key that the Python code does not put into
`update_data` leaves the column at its previous value. -/
def update_timer_state (row : ListRow) (state : String) (remaining : Option Int)
    (sessions_completed : Option Nat) (current_phase : Option String) (now : Int) : ListRow :=
  let newPhase : Option String :=
    match current_phase with
    | some p => some p
    | none =>
      if isRunning state then some state
      else if state = "idle" ∨ state = "paused" then row.current_phase
      else row.current_phase
  let newStartedAt : Option Int :=
    if isRunning state then
      if isRunning row.timer_state then row.timer_started_at else some now
    else if state = "idle" ∨ state = "paused" then none
    else row.timer_started_at
  let defaultedRemaining : Int :=
    if isRunning state ∧ ¬ isRunning row.timer_state ∧ remaining = none then
      match phaseDuration row newPhase with
      | some d => d
      | none => row.timer_remaining
    else row.timer_remaining
  let newRemaining : Int :=
    match remaining with
    | some r => r
    | none => defaultedRemaining
  { row with
    timer_state := state
    current_phase := newPhase
    timer_started_at := newStartedAt
    timer_remaining := newRemaining
    sessions_completed := sessions_completed.getD row.sessions_completed
    timer_last_updated := some now }

/-- `start_timer` (home.py), applied to the caller's active list row. -/
def start_timer (row : ListRow) (now : Int) : ListRow :=
  if row.timer_state = "idle" then
    update_timer_state row "session" (some (row.pomo_session * 60))
      (some row.sessions_completed) (some "session") now
  else if row.timer_state = "paused" then
    let current_phase := row.current_phase.getD "session"
    update_timer_state row current_phase (some (calculate_remaining_time row now))
      (some row.sessions_completed) (some current_phase) now
  else
    update_timer_state row row.timer_state (some (calculate_remaining_time row now))
      (some row.sessions_completed) (some (row.current_phase.getD row.timer_state)) now

/-- `pause_timer` (home.py): `none` models the "Timer is not running" 400
answer (no commit). -/
def pause_timer (row : ListRow) (now : Int) : Option ListRow :=
  if isRunning row.timer_state then
    some (update_timer_state row "paused" (some (calculate_remaining_time row now))
      none (some row.timer_state) now)
  else none

/-- `skip_timer` (home.py), applied to the caller's active list row. -/
def skip_timer (row : ListRow) (now : Int) : ListRow :=
  let next := get_next_phase row.timer_state row.sessions_completed
  let remaining : Option Int :=
    if next.1 = "session" then some (row.pomo_session * 60)
    else if next.1 = "short_break" then some (row.pomo_short_break * 60)
    else if next.1 = "long_break" then some (row.pomo_long_break * 60)
    else none
  update_timer_state row next.1 remaining (some next.2) (some next.1) now

/-- `is_descendant` (home.py): fetches the path of `potential_descendant_id`
and tests whether the id token of `potential_ancestor_id` occurs among its
`/`-separated tokens (`ancestor_path in descendant_path.split('/')`). -/
def is_descendant (potential_ancestor_id potential_descendant_id : Nat)
    (tasks : List Task) : Bool :=
  match tasks.find? (fun t => decide (t.id = potential_descendant_id)) with
  | none => false
  | some descendant => potential_ancestor_id ∈ descendant.path

/-- The `UPDATE tasks SET path = ?, level = ? WHERE id = ?` statement. -/
def setPathLevel (i : Nat) (pth : List Nat) (lv : Nat) (tasks : List Task) : List Task :=
  tasks.map fun t => if t.id = i then { t with path := pth, level := lv } else t

/-- The loop body of `update_descendants_paths`: walk the fetched list of
direct descendants, rewrite each row, and recurse (through `rec`, the
fuel-smaller instance of `update_descendants_paths`) into its children. -/
def udpGo (rec : Nat → List Nat → Nat → List Task → Option (List Task)) :
    List Task → List Nat → Nat → List Task → Option (List Task)
  | [], _, _, tasks => some tasks
  | d :: ds, parentPath, parentLevel, tasks =>
    let newPath := parentPath ++ [d.id]
    let newLevel := parentLevel + 1
    match rec d.id newPath newLevel (setPathLevel d.id newPath newLevel tasks) with
    | none => none
    | some tasks2 => udpGo rec ds parentPath parentLevel tasks2

/-- `update_descendants_paths` (home.py): recursively rewrite path and level
of every descendant of `parent_id`.  The Python recursion has no bound; the
`fuel` argument models it, and returning `none` models the recursion that
never terminates (on a parent-link cycle Python raises `RecursionError`,
the route's `except` rolls the transaction back).  Defined through `Nat.rec`
so that the kernel can evaluate it. -/
def update_descendants_paths (fuel : Nat) :
    Nat → List Nat → Nat → List Task → Option (List Task) :=
  Nat.rec (motive := fun _ => Nat → List Nat → Nat → List Task → Option (List Task))
    (fun _ _ _ _ => none)
    (fun _ ih parent_id new_parent_path new_parent_level tasks =>
      udpGo ih (tasks.filter fun t => decide (t.parent = some parent_id))
        new_parent_path new_parent_level tasks)
    fuel

/-- `COALESCE(MAX(position), -1)` over the caller's tasks of one list
(the subquery of `add_task`, which does not filter on `parent_id`). -/
def maxPosition (tasks : List Task) (list_id user_id : Nat) : Int :=
  ((tasks.filter fun t => decide (t.listId = list_id ∧ t.userId = user_id)).map
    (fun t => t.position)).foldl max (-1)

/-- `COALESCE(MAX(position), -1)` over the siblings of one parent
(the subquery of `create_subtask`). -/
def maxSiblingPosition (tasks : List Task) (list_id user_id parent_id : Nat) : Int :=
  ((tasks.filter fun t =>
      decide (t.listId = list_id ∧ t.userId = user_id ∧ t.parent = some parent_id)).map
    (fun t => t.position)).foldl max (-1)

/-- `add_task` (home.py): insert a root task into the active list `list_id`
with position `max+1`, then stamp its path with its own id.  `new_id` is the
row id the insert returns (`cursor.lastrowid`). -/
def add_task (tasks : List Task) (list_id user_id : Nat) (content : String)
    (new_id : Nat) : List Task :=
  tasks ++ [{ id := new_id, listId := list_id, userId := user_id, content := content,
              position := maxPosition tasks list_id user_id + 1,
              parent := none, level := 0, path := [new_id],
              isDone := false, tags := [] }]

/-- `create_subtask` (home.py): insert a child of `parent_id` with position
`max sibling position + 1`, level `parent.level + 1`, and path
`parent.path ++ [new_id]`; `none` models the "Parent task not found or
access denied" answer. -/
def create_subtask (tasks : List Task) (user_id parent_id : Nat) (content : String)
    (new_id : Nat) : Option (List Task) :=
  match tasks.find? (fun t => decide (t.id = parent_id ∧ t.userId = user_id)) with
  | none => none
  | some parent_task =>
    some (tasks ++ [{ id := new_id, listId := parent_task.listId, userId := user_id,
                      content := content,
                      position := maxSiblingPosition tasks parent_task.listId user_id parent_id + 1,
                      parent := some parent_id, level := parent_task.level + 1,
                      path := parent_task.path ++ [new_id],
                      isDone := false, tags := [] }])

/-- The `UPDATE tasks SET parent_id = ?, level = ?, path = ? WHERE id = ?`
statement of `move_task`. -/
def setParentPathLevel (i : Nat) (par : Option Nat) (pth : List Nat) (lv : Nat)
    (tasks : List Task) : List Task :=
  tasks.map fun t => if t.id = i then { t with parent := par, path := pth, level := lv } else t

/-- `move_task` (home.py): re-parent task `id` (`make_subtask`) or detach it
(`move_to_root`), then fix every descendant with `update_descendants_paths`.
Errors carry the route's message; any error leaves the table unchanged
(either nothing was committed or the `except` block rolled back). -/
def move_task (tasks : List Task) (user_id id : Nat) (operation : String)
    (new_parent_id : Option Nat) : Except String (List Task) :=
  match tasks.find? (fun t => decide (t.id = id ∧ t.userId = user_id)) with
  | none => .error "Task not found or access denied"
  | some _ =>
    if operation = "make_subtask" ∧ new_parent_id ≠ none then
      match new_parent_id with
      | none => .ok tasks
      | some pid =>
        match tasks.find? (fun t => decide (t.id = pid ∧ t.userId = user_id)) with
        | none => .error "Parent task not found or access denied"
        | some new_parent =>
          if is_descendant pid id tasks then
            .error "Cannot create circular reference"
          else
            let new_level := new_parent.level + 1
            let new_path := new_parent.path ++ [id]
            let tasks1 := setParentPathLevel id (some pid) new_path new_level tasks
            match update_descendants_paths (tasks.length + 1) id new_path new_level tasks1 with
            | some tasks2 => .ok tasks2
            | none => .error "Database error"
    else if operation = "move_to_root" then
      let tasks1 := setParentPathLevel id none [id] 0 tasks
      match update_descendants_paths (tasks.length + 1) id [id] 0 tasks1 with
      | some tasks2 => .ok tasks2
      | none => .error "Database error"
    else
      .ok tasks

/-- The table after an attempted `move_task` request: the committed new table
on success, the unchanged table when the route answered an error. -/
def move_task_result (tasks : List Task) (user_id id : Nat) (operation : String)
    (new_parent_id : Option Nat) : List Task :=
  match move_task tasks user_id id operation new_parent_id with
  | .ok tasks2 => tasks2
  | .error _ => tasks

/-- The position-rewriting tail of `update_task_hierarchy` (home.py): with
`position_after_id`, every task of the caller's list strictly after the
anchor is shifted up by one and the moved task lands right after the anchor;
without it, every task of the list is shifted up and the moved task takes
slot 0. -/
def applyPositionUpdate (user_id task_id : Nat) (position_after_id : Option Nat)
    (list_id : Nat) (tasks : List Task) : List Task :=
  match position_after_id with
  | some after_id =>
    match tasks.find? (fun t =>
        decide (t.id = after_id ∧ t.userId = user_id ∧ t.listId = list_id)) with
    | none => tasks
    | some after_task =>
      let bumped := tasks.map fun t =>
        if after_task.position < t.position ∧ t.userId = user_id ∧ t.listId = list_id then
          { t with position := t.position + 1 } else t
      bumped.map fun t =>
        if t.id = task_id ∧ t.userId = user_id then
          { t with position := after_task.position + 1 } else t
  | none =>
    let bumped := tasks.map fun t =>
      if t.userId = user_id ∧ t.listId = list_id then
        { t with position := t.position + 1 } else t
    bumped.map fun t =>
      if t.id = task_id ∧ t.userId = user_id then { t with position := 0 } else t

/-- `update_task_hierarchy` (home.py): re-parent (or detach) `task_id`, fix
its descendants, then apply the optional position update; all inside one
transaction, so every error leaves the table unchanged. -/
def update_task_hierarchy (tasks : List Task) (user_id task_id : Nat)
    (new_parent_id : Option Nat) (position_after_id : Option Nat) (list_id : Nat) :
    Except String (List Task) :=
  match tasks.find? (fun t => decide (t.id = task_id ∧ t.userId = user_id)) with
  | none => .error "Task not found or unauthorized"
  | some _ =>
    let hierarchyResult : Except String (List Task) :=
      match new_parent_id with
      | none =>
        let tasks1 := setParentPathLevel task_id none [task_id] 0 tasks
        match update_descendants_paths (tasks.length + 1) task_id [task_id] 0 tasks1 with
        | some tasks2 => .ok tasks2
        | none => .error "Database error"
      | some pid =>
        match tasks.find? (fun t => decide (t.id = pid ∧ t.userId = user_id)) with
        | none => .error "Parent task not found or access denied"
        | some new_parent =>
          if is_descendant pid task_id tasks then
            .error "Cannot create circular reference"
          else
            let new_level := new_parent.level + 1
            let new_path := new_parent.path ++ [task_id]
            let tasks1 := setParentPathLevel task_id (some pid) new_path new_level tasks
            match update_descendants_paths (tasks.length + 1) task_id new_path new_level tasks1 with
            | some tasks2 => .ok tasks2
            | none => .error "Database error"
    match hierarchyResult with
    | .error e => .error e
    | .ok tasks2 => .ok (applyPositionUpdate user_id task_id position_after_id list_id tasks2)

/-- The loop of `reorder_tasks` (home.py): `for index, task_id in
enumerate(task_order): UPDATE tasks SET position = index WHERE id = task_id
AND user_id = ? AND list_id = ?`. -/
def reorderGo (user_id list_id : Nat) (index : Nat) :
    List Nat → List Task → List Task
  | [], tasks => tasks
  | task_id :: rest, tasks =>
    reorderGo user_id list_id (index + 1) rest
      (tasks.map fun t =>
        if t.id = task_id ∧ t.userId = user_id ∧ t.listId = list_id then
          { t with position := (index : Int) } else t)

/-- `reorder_tasks` (home.py), after the list-ownership check. -/
def reorder_tasks (tasks : List Task) (user_id list_id : Nat)
    (task_order : List Nat) : List Task :=
  reorderGo user_id list_id 0 task_order tasks

/-- The joined materialized-path string of a token list, as the `path`
column stores it (decimal tokens separated by `/`), as a character list. -/
def pathChars (p : List Nat) : List Char :=
  (String.intercalate "/" (p.map toString)).data

/-- Strict byte-wise comparison of character lists: SQLite's BINARY collation
on the ASCII path strings. -/
def lexLt : List Char → List Char → Bool
  | [], [] => false
  | [], _ :: _ => true
  | _ :: _, [] => false
  | c :: cs, d :: ds =>
    decide (c.toNat < d.toNat) || (decide (c.toNat = d.toNat) && lexLt cs ds)

/-- The first sort key of the hierarchy query:
`CASE WHEN parent_id IS NULL THEN position ELSE 999999 END`. -/
def hierKey1 (t : Task) : Int := if t.parent = none then t.position else 999999

/-- The third sort key of the hierarchy query:
`CASE WHEN parent_id IS NOT NULL THEN position ELSE 999999 END`. -/
def hierKey3 (t : Task) : Int := if t.parent ≠ none then t.position else 999999

/-- The `ORDER BY` comparison of `get_tasks_with_hierarchy`: lexicographic on
(first CASE key, path string under BINARY collation, second CASE key). -/
def hierLe (a b : Task) : Bool :=
  if hierKey1 a ≠ hierKey1 b then decide (hierKey1 a < hierKey1 b)
  else if pathChars a.path ≠ pathChars b.path then lexLt (pathChars a.path) (pathChars b.path)
  else decide (hierKey3 a ≤ hierKey3 b)

/-- Insert into a list sorted by `hierLe` (the `ORDER BY` is modelled as an
insertion sort by the three-part key; the key is total on distinct rows
since paths are unique, so any correct sort yields this list). -/
def insertSorted (a : Task) : List Task → List Task
  | [] => [a]
  | b :: bs => if hierLe a b then a :: b :: bs else b :: insertSorted a bs

/-- Sort by the `ORDER BY` key of the hierarchy query. -/
def orderByHierKey : List Task → List Task
  | [] => []
  | a :: as' => insertSorted a (orderByHierKey as')

/-- The direct children a recursive-CTE step joins to a row: same list, same
user, `parent_id` pointing to the row. -/
def childrenOf (tasks : List Task) (list_id user_id : Nat) (r : Task) : List Task :=
  tasks.filter fun t =>
    decide (t.parent = some r.id ∧ t.listId = list_id ∧ t.userId = user_id)

/-- The rows the recursive CTE of `get_tasks_with_hierarchy` derives from one
anchor row (the row plus, recursively, its children), with fuel bounding the
join depth. -/
def cteRows (tasks : List Task) (list_id user_id : Nat) : Nat → Task → List Task :=
  Nat.rec (motive := fun _ => Task → List Task)
    (fun r => [r])
    (fun _ ih r => r :: ((childrenOf tasks list_id user_id r).map ih).flatten)

/-- `get_tasks_with_hierarchy` (home.py): the recursive CTE anchored at the
`parent_id IS NULL` rows of the caller's list, ordered by the three-part
`ORDER BY` key. -/
def get_tasks_with_hierarchy (tasks : List Task) (list_id user_id : Nat) : List Task :=
  orderByHierKey
    (((tasks.filter fun t =>
        decide (t.listId = list_id ∧ t.userId = user_id ∧ t.parent = none)).map
      (cteRows tasks list_id user_id tasks.length)).flatten)

/-- The `UPDATE lists SET timer_state = 'paused', timer_started_at = NULL,
timer_last_updated = now WHERE id = ? AND user_id = ?` row update of
`select_list` (note: `timer_remaining` is not recomputed). -/
def pauseActiveRow (user_id ca_id : Nat) (now : Int) (l : ListRow) : ListRow :=
  if l.id = ca_id ∧ l.userId = user_id then
    { l with timer_state := "paused", timer_started_at := none,
             timer_last_updated := some now }
  else l

/-- The `UPDATE lists SET is_active = 0 WHERE user_id = ?` row update. -/
def deactivateRow (user_id : Nat) (l : ListRow) : ListRow :=
  if l.userId = user_id then { l with isActive := false } else l

/-- The `UPDATE lists SET is_active = 1 WHERE id = ? AND user_id = ?` row
update. -/
def activateRow (user_id target : Nat) (l : ListRow) : ListRow :=
  if l.id = target ∧ l.userId = user_id then { l with isActive := true } else l

/-- `select_list` (lists.py): activate list `target` for user `user_id`.  If
the previously active list's timer is running, it is set to `paused` with its
start timestamp cleared (its remaining-seconds snapshot is not recomputed);
then every list of the user is deactivated and the target activated, all in
one commit.  An unowned target only flashes an error: unchanged table. -/
def select_list (lists : List ListRow) (user_id target : Nat) (now : Int) : List ListRow :=
  match lists.find? (fun l => decide (l.id = target ∧ l.userId = user_id)) with
  | none => lists
  | some _ =>
    let current_active := lists.find? (fun l => l.isActive && decide (l.userId = user_id))
    let lists1 :=
      match current_active with
      | some ca =>
        if isRunning ca.timer_state then lists.map (pauseActiveRow user_id ca.id now)
        else lists
      | none => lists
    let lists2 := lists1.map (deactivateRow user_id)
    lists2.map (activateRow user_id target)

/-- `create` (lists.py): `INSERT INTO lists (user_id, name, description)`.
The inserted row's other columns take the schema defaults; the schema file is
not part of the routed sources, so the default of the `is_active` column is
the parameter `default_active` (the timer columns start idle/zero as §3 of
the spec states). -/
def create_list (lists : List ListRow) (user_id : Nat) (name description : String)
    (new_id : Nat) (default_active : Bool) : List ListRow :=
  lists ++ [{ id := new_id, userId := user_id, name := name, description := description,
              isActive := default_active,
              timer_state := "idle", current_phase := none,
              timer_remaining := 0, timer_started_at := none, timer_last_updated := none,
              sessions_completed := 0,
              pomo_session := 25, pomo_short_break := 5, pomo_long_break := 15 }]

/-- `delete_list` (lists.py): delete the owned list `target`; when it was the
active one, promote the first remaining list of the user (`LIMIT 1`), if any. -/
def delete_list (lists : List ListRow) (user_id target : Nat) : List ListRow :=
  match lists.find? (fun l => decide (l.id = target ∧ l.userId = user_id)) with
  | none => lists
  | some row =>
    let was_active := row.isActive
    let lists1 := lists.filter fun l => decide (¬ (l.id = target ∧ l.userId = user_id))
    if was_active then
      match lists1.find? (fun l => decide (l.userId = user_id)) with
      | some new_active => lists1.map (activateRow user_id new_active.id)
      | none => lists1
    else lists1

/-- "Exactly one active list per owner": an owner who has at least one list
has exactly one with the active flag set. -/
def ActiveInv (lists : List ListRow) (user_id : Nat) : Prop :=
  (lists.filter fun l => decide (l.userId = user_id)) ≠ [] →
    (lists.filter fun l => l.isActive && decide (l.userId = user_id)).length = 1

instance (lists : List ListRow) (user_id : Nat) : Decidable (ActiveInv lists user_id) := by
  unfold ActiveInv; infer_instance

/-- The ids of the task rows. -/
def idsOf (tasks : List Task) : List Nat := tasks.map fun t => t.id

/-- The row invariant of the materialized-path representation: a root's path
is its own id and its level 0; a child's path extends its parent's path with
its own id and its level is the parent's plus one. -/
def OkAt (tasks : List Task) (r : Task) : Prop :=
  match r.parent with
  | none => r.path = [r.id] ∧ r.level = 0
  | some q => ∃ p ∈ tasks, p.id = q ∧ r.path = p.path ++ [r.id] ∧ r.level = p.level + 1

instance (tasks : List Task) (r : Task) : Decidable (OkAt tasks r) :=
  match h : r.parent with
  | none => decidable_of_iff (r.path = [r.id] ∧ r.level = 0) (by rw [OkAt, h])
  | some q =>
    decidable_of_iff (∃ p ∈ tasks, p.id = q ∧ r.path = p.path ++ [r.id] ∧ r.level = p.level + 1)
      (by rw [OkAt, h])

/-- The table invariant: ids are unique and every row satisfies `OkAt`. -/
def Inv (tasks : List Task) : Prop :=
  (idsOf tasks).Nodup ∧ ∀ r ∈ tasks, OkAt tasks r

instance (tasks : List Task) : Decidable (Inv tasks) := by
  unfold Inv; infer_instance

/-- `b`'s row names `a` as its parent. -/
def childRel (tasks : List Task) (a b : Nat) : Prop :=
  ∃ r ∈ tasks, r.id = b ∧ r.parent = some a

/-- `b` is a proper descendant of `a` along parent links. -/
def ReachP (tasks : List Task) (a b : Nat) : Prop :=
  Relation.TransGen (childRel tasks) a b

/-- No task is its own proper descendant. -/
def AcyclicT (tasks : List Task) : Prop := ∀ x, ¬ ReachP tasks x x

/-- The columns `update_descendants_paths` never writes (everything except
`path` and `level`), used to state its frame. -/
def coreOf (t : Task) : Nat × Option Nat × Nat × Nat × Int × String × Bool × List String :=
  (t.id, t.parent, t.listId, t.userId, t.position, t.content, t.isDone, t.tags)

/-- The columns no hierarchy rewrite (`parent_id`/`path`/`level` updates)
ever touches, used to state position frames. -/
def posCore (t : Task) : Nat × Nat × Nat × Int := (t.id, t.listId, t.userId, t.position)

/-- States in pointwise correspondence: every row keeps its core columns, and
a row whose id is not `touched` is entirely unchanged. -/
def Evolves (touched : Nat → Prop) (tasks tasks2 : List Task) : Prop :=
  List.Forall₂ (fun r r2 => coreOf r2 = coreOf r ∧ (¬ touched r.id → r2 = r)) tasks tasks2

/-- A phase the timer can be running in. -/
def IsRunningPhase (s : String) : Prop :=
  s = "session" ∨ s = "short_break" ∨ s = "long_break"

/-- The cycle test the specification describes for `moveToParent`: membership
of the moved task's id token in the new parent's materialized path.
Modelled from the spec (the implementation in `home.py` passes the arguments
the other way around): "fails with CycleError if newParent equals task or is
a descendant of task (tested via prefix membership of task's id token in
newParent's path)". -/
def spec_cycle_check (task_id new_parent_id : Nat) (tasks : List Task) : Bool :=
  match tasks.find? (fun t => decide (t.id = new_parent_id)) with
  | none => false
  | some new_parent => task_id ∈ new_parent.path

/-- Two tasks: root 1 and its child 2. -/
def exC1 : List Task :=
  [{ id := 1, listId := 5, userId := 9, content := "a", position := 0,
     parent := none, level := 0, path := [1], isDone := false, tags := [] },
   { id := 2, listId := 5, userId := 9, content := "b", position := 0,
     parent := some 1, level := 1, path := [1, 2], isDone := false, tags := [] }]

/-- Roots 1 and 2 (order indices 0 and 1) and a child 3 of root 1. -/
def exC3 : List Task :=
  [{ id := 1, listId := 5, userId := 9, content := "a", position := 0,
     parent := none, level := 0, path := [1], isDone := false, tags := [] },
   { id := 2, listId := 5, userId := 9, content := "b", position := 1,
     parent := none, level := 0, path := [2], isDone := false, tags := [] },
   { id := 3, listId := 5, userId := 9, content := "c", position := 0,
     parent := some 1, level := 1, path := [1, 3], isDone := false, tags := [] }]

/-- A list row whose timer is running a session started at second 1000 with
1500 seconds captured in the snapshot. -/
def exC4row : ListRow :=
  { id := 1, userId := 7, name := "L", description := "", isActive := true,
    timer_state := "session", current_phase := some "session",
    timer_remaining := 1500, timer_started_at := some 1000,
    timer_last_updated := some 1000, sessions_completed := 0,
    pomo_session := 25, pomo_short_break := 5, pomo_long_break := 15 }

/-- A list row whose timer is running a short break. -/
def exC5row : ListRow :=
  { id := 1, userId := 7, name := "L", description := "", isActive := true,
    timer_state := "short_break", current_phase := some "short_break",
    timer_remaining := 300, timer_started_at := some 2000,
    timer_last_updated := some 2000, sessions_completed := 2,
    pomo_session := 25, pomo_short_break := 5, pomo_long_break := 15 }

/-- Root 1 with the two subtasks 2 and 3 (order indices 0 and 1). -/
def exC7 : List Task :=
  [{ id := 1, listId := 4, userId := 8, content := "p", position := 0,
     parent := none, level := 0, path := [1], isDone := false, tags := [] },
   { id := 2, listId := 4, userId := 8, content := "x", position := 0,
     parent := some 1, level := 1, path := [1, 2], isDone := false, tags := [] },
   { id := 3, listId := 4, userId := 8, content := "y", position := 1,
     parent := some 1, level := 1, path := [1, 3], isDone := false, tags := [] }]

/-- Root 1 (order index 0) with subtasks 2 and 3 at order indices 0 and 1:
the maximal order index over the whole list (1) exceeds the maximal order
index among the root's siblings (0). -/
def exC8 : List Task :=
  [{ id := 1, listId := 3, userId := 6, content := "r", position := 0,
     parent := none, level := 0, path := [1], isDone := false, tags := [] },
   { id := 2, listId := 3, userId := 6, content := "s", position := 0,
     parent := some 1, level := 1, path := [1, 2], isDone := false, tags := [] },
   { id := 3, listId := 3, userId := 6, content := "t", position := 1,
     parent := some 1, level := 1, path := [1, 3], isDone := false, tags := [] }]

/-- One list owned by user 7 with the active flag set. -/
def exC9active : List ListRow :=
  [{ id := 1, userId := 7, name := "A", description := "", isActive := true,
     timer_state := "idle", current_phase := none,
     timer_remaining := 0, timer_started_at := none, timer_last_updated := none,
     sessions_completed := 0, pomo_session := 25, pomo_short_break := 5,
     pomo_long_break := 15 }]

/-- List 1 of user 7: active and running a session. -/
def exC10a : ListRow :=
  { id := 1, userId := 7, name := "A", description := "", isActive := true,
    timer_state := "session", current_phase := some "session",
    timer_remaining := 900, timer_started_at := some 5000,
    timer_last_updated := some 5000, sessions_completed := 1,
    pomo_session := 25, pomo_short_break := 5, pomo_long_break := 15 }

/-- List 2 of user 7: idle and inactive. -/
def exC10b : ListRow :=
  { id := 2, userId := 7, name := "B", description := "", isActive := false,
    timer_state := "idle", current_phase := none,
    timer_remaining := 0, timer_started_at := none, timer_last_updated := none,
    sessions_completed := 0, pomo_session := 25, pomo_short_break := 5,
    pomo_long_break := 15 }

/-- Two lists of user 7: list 1 active and running a session, list 2 idle. -/
def exC10 : List ListRow := [exC10a, exC10b]

/-- A root task owned by user 9 in list 5, used to witness the invariant
preservation theorem on a concrete store. -/
def exC2 : List Task :=
  [{ id := 1, listId := 5, userId := 9, content := "a", position := 0,
     parent := none, level := 0, path := [1], isDone := false, tags := [] }]

/-- C1: the table `exC1` satisfies the data-model invariant and task 2 is a
descendant (a child) of task 1, yet the cycle check of `move_task` does not
fire when task 1 is moved under task 2 — `is_descendant(2, 1)` looks for the
token `2` in the path of task 1 instead of looking for the token `1` in the
path of task 2 as the specification describes (`spec_cycle_check`) — so the
move is not rejected with the circular-reference error; it proceeds into the
descendant fixup, whose recursion never terminates on the now-cyclic parent
links (modelled by the exhausted fuel), and the route answers the generic
"Database error" instead of the CycleError the claim requires. -/
theorem c1_cycle_check_misses_descendant :
    Inv exC1 ∧
    (∃ r ∈ exC1, r.id = 2 ∧ r.parent = some 1) ∧
    spec_cycle_check 1 2 exC1 = true ∧
    is_descendant 2 1 exC1 = false ∧
    move_task exC1 9 1 "make_subtask" (some 2) = .error "Database error" ∧
    move_task exC1 9 1 "make_subtask" (some 2) ≠ .error "Cannot create circular reference" := by
  refine ⟨by decide, by decide, by decide, by decide, rfl, ?_⟩
  intro h
  rw [show move_task exC1 9 1 "make_subtask" (some 2) = .error "Database error" from rfl] at h
  simp at h

/-- C3: on the store `exC3` — roots 1 and 2 with order indices 0 and 1, and
task 3 a child of root 1 — the hierarchy query returns `[1, 2, 3]`: both
roots first, then the subtask.  The claim requires each parent to be
followed immediately by its full subtree before the next root, i.e.
`[1, 3, 2]`, so the descendant 3 must not come after root 2. -/
theorem c3_roots_not_followed_by_subtree :
    (get_tasks_with_hierarchy exC3 5 9).map (fun t => t.id) = [1, 2, 3] ∧
    ([1, 2, 3] : List Nat) ≠ [1, 3, 2] := by
  exact ⟨by decide, by decide⟩

/-- C4: while the timer is in a running phase with a start timestamp, every
status read derives the remaining seconds as the stored snapshot minus the
wall-clock seconds elapsed since the start timestamp, floored at zero (the
stored snapshot itself is never changed by a read: the computation is a pure
function of the row and the clock). -/
theorem c4_status_remaining_formula (row : ListRow) (now started : Int)
    (hrun : IsRunningPhase row.timer_state)
    (hstart : row.timer_started_at = some started) :
    get_timer_status_remaining row now = max 0 (row.timer_remaining - (now - started)) := by
  rcases hrun with h | h | h <;>
    simp [get_timer_status_remaining, calculate_remaining_time, hstart, h]

/-- Witness for `c4_status_remaining_formula`: a session started at second
1000 with snapshot 1500, read at second 1300, shows 1200 seconds left. -/
theorem c4_witness : get_timer_status_remaining exC4row 1300 = 1200 := by
  have h := c4_status_remaining_formula exC4row 1300 1000 (Or.inl rfl) rfl
  simpa [exC4row] using h

/-- C5: pausing a running phase X snapshots the remaining time recomputed
from the elapsed time, records `current_phase = X`, clears the start
timestamp and keeps the session counter; a later start resumes phase X (not
`session`) with the stored snapshot, a fresh start timestamp, and the
session counter unchanged. -/
theorem c5_pause_preserves_phase_resume (row : ListRow) (now now2 : Int)
    (hrun : IsRunningPhase row.timer_state) :
    ∃ p, pause_timer row now = some p ∧
      p.timer_state = "paused" ∧
      p.current_phase = some row.timer_state ∧
      p.timer_remaining = calculate_remaining_time row now ∧
      p.timer_started_at = none ∧
      p.sessions_completed = row.sessions_completed ∧
      (start_timer p now2).timer_state = row.timer_state ∧
      (start_timer p now2).current_phase = some row.timer_state ∧
      (start_timer p now2).timer_remaining = p.timer_remaining ∧
      (start_timer p now2).timer_started_at = some now2 ∧
      (start_timer p now2).sessions_completed = row.sessions_completed := by
  rcases hrun with h | h | h <;>
    simp [pause_timer, start_timer, update_timer_state, calculate_remaining_time, isRunning, h]

/-- Witness for `c5_pause_preserves_phase_resume`: pausing `exC5row` (running
a short break) and starting again resumes the short break. -/
theorem c5_witness :
    ∃ p, pause_timer exC5row 2100 = some p ∧
      p.timer_state = "paused" ∧
      p.current_phase = some "short_break" ∧
      (start_timer p 2500).timer_state = "short_break" := by
  obtain ⟨p, h1, h2, h3, -, -, -, h7, -⟩ :=
    c5_pause_preserves_phase_resume exC5row 2100 2500 (Or.inr (Or.inl rfl))
  exact ⟨p, h1, h2, h3, h7⟩

/-- C6: the transition table of `skip` — from `session` the counter is
incremented and the phase becomes `long_break` exactly when the new counter
is divisible by 4 (`short_break` otherwise); from either break the phase
returns to `session` with the counter unchanged; from `paused` the counter's
residue mod 4 in {0, 2} leads to `short_break` with an incremented counter
and a residue in {1, 3} leads to `session` with the counter unchanged; and
the skip endpoint installs exactly the phase and counter `get_next_phase`
returns. -/
theorem c6_skip_transitions (n : Nat) :
    get_next_phase "session" n =
      (if (n + 1) % 4 = 0 then ("long_break", n + 1) else ("short_break", n + 1)) ∧
    get_next_phase "short_break" n = ("session", n) ∧
    get_next_phase "long_break" n = ("session", n) ∧
    get_next_phase "paused" n =
      (if n % 4 = 0 ∨ n % 4 = 2 then ("short_break", n + 1) else ("session", n)) ∧
    (∀ (row : ListRow) (now : Int),
      (skip_timer row now).timer_state =
          (get_next_phase row.timer_state row.sessions_completed).1 ∧
      (skip_timer row now).sessions_completed =
          (get_next_phase row.timer_state row.sessions_completed).2 ∧
      (skip_timer row now).current_phase =
          some (get_next_phase row.timer_state row.sessions_completed).1) := by
  refine ⟨by simp [get_next_phase], by simp [get_next_phase], by simp [get_next_phase], ?_, ?_⟩
  · have h4 : n % 4 = 0 ∨ n % 4 = 1 ∨ n % 4 = 2 ∨ n % 4 = 3 := by omega
    rcases h4 with h | h | h | h <;> simp [get_next_phase, h]
  · intro row now
    refine ⟨?_, ?_, ?_⟩ <;> simp [skip_timer, update_timer_state]

/-- C7 counterexample: on `exC7`, reordering the subtask siblings of root 1
as `[3, 2]` does set their order indices to 0 and 1 in that order, but the
subsequent hierarchy query still returns them as `[2, 3]` (subtask siblings
are sorted by materialized path, not by order index), not in the given order
`[3, 2]`. -/
theorem c7_counterexample :
    (reorder_tasks exC7 8 4 [3, 2]).map (fun t => (t.id, t.position)) =
      [(1, 0), (2, 1), (3, 0)] ∧
    (get_tasks_with_hierarchy (reorder_tasks exC7 8 4 [3, 2]) 4 8).map (fun t => t.id) =
      [1, 2, 3] ∧
    ([1, 2, 3] : List Nat) ≠ [1, 3, 2] := by
  exact ⟨by decide, by decide, by decide⟩

/-- C8 counterexample: on `exC8` (root 1 at order index 0, its subtasks at
order indices 0 and 1), inserting a new root task gives it order index 2 —
one more than the maximum over the whole list — although the maximum among
its siblings (the roots) is 0, so the claimed value would be 1; the root
sibling group's order indices `[0, 2]` are then not contiguous. -/
theorem c8_counterexample :
    ((add_task exC8 3 6 "new" 4).filter fun r => decide (r.parent = none)).map
      (fun t => t.position) = [0, 2] ∧
    ([0, 2] : List Int) ≠ [0, 1] := by
  exact ⟨by decide, by decide⟩

/-- C9 counterexample: `create` (lists.py) inserts the new list without
touching any active flag, so whichever value the schema defaults the flag to,
the "exactly one active list per owner" invariant is violated after a
creation: with default false, the owner's first list leaves them with one
list and no active one; with default true, creating a second list besides an
active one leaves two active. -/
theorem c9_counterexample :
    ¬ ActiveInv (create_list [] 7 "first" "" 1 false) 7 ∧
    ¬ ActiveInv (create_list exC9active 7 "second" "" 2 true) 7 := by
  exact ⟨by decide, by decide⟩

/-- C10: activating a different list while the owner's active list is running
leaves the previous list paused with its start timestamp cleared and its
last-updated stamp refreshed, while its remaining-seconds snapshot (the
elapsed time is not deducted), its `current_phase` and its session counter
keep their stored values; the previous list is also deactivated. -/
theorem c10_select_pauses_previous (lists : List ListRow) (u target : Nat) (now : Int)
    (ca : ListRow)
    (hca : lists.find? (fun l => l.isActive && decide (l.userId = u)) = some ca)
    (hrun : IsRunningPhase ca.timer_state)
    (htar : ∃ lt ∈ lists, lt.id = target ∧ lt.userId = u)
    (hne : target ≠ ca.id) :
    ∃ row ∈ select_list lists u target now,
      row.id = ca.id ∧
      row.timer_state = "paused" ∧
      row.timer_started_at = none ∧
      row.timer_remaining = ca.timer_remaining ∧
      row.current_phase = ca.current_phase ∧
      row.sessions_completed = ca.sessions_completed ∧
      row.timer_last_updated = some now ∧
      row.isActive = false := by
  obtain ⟨lt, hlt, hltid, hltu⟩ := htar
  have hfind : (lists.find? (fun l => decide (l.id = target ∧ l.userId = u))).isSome := by
    rw [List.find?_isSome]
    exact ⟨lt, hlt, by simp [hltid, hltu]⟩
  obtain ⟨t0, ht0⟩ := Option.isSome_iff_exists.mp hfind
  have hcaMem : ca ∈ lists := List.mem_of_find?_eq_some hca
  have hcaProp := List.find?_some hca
  have hcaU : ca.userId = u := by
    simp only [Bool.and_eq_true, decide_eq_true_eq] at hcaProp
    exact hcaProp.2
  have hrunb : isRunning ca.timer_state = true := by
    rcases hrun with h | h | h <;> simp [isRunning, h]
  rw [select_list, ht0, hca]
  simp only [hrunb, if_true]
  have hne3 : ca.id ≠ target := fun h => hne h.symm
  refine ⟨_, List.mem_map_of_mem _ (List.mem_map_of_mem _ (List.mem_map_of_mem _ hcaMem)), ?_⟩
  simp [pauseActiveRow, deactivateRow, activateRow, hcaU, hne3]

/-- Witness for `c10_select_pauses_previous` on the concrete store `exC10`. -/
theorem c10_witness :
    ∃ row ∈ select_list exC10 7 2 5300,
      row.id = exC10a.id ∧
      row.timer_state = "paused" ∧
      row.timer_started_at = none ∧
      row.timer_remaining = exC10a.timer_remaining ∧
      row.current_phase = exC10a.current_phase ∧
      row.sessions_completed = exC10a.sessions_completed ∧
      row.timer_last_updated = some 5300 ∧
      row.isActive = false :=
  c10_select_pauses_previous exC10 7 2 5300 exC10a (by decide) (Or.inl rfl)
    (by decide) (by decide)

/-- A pairing of lists with a relation holding pointwise yields, for each
member of the left list, a related member of the right list. -/
theorem forall₂_exists_right {α β : Type} {R : α → β → Prop} {l1 : List α} {l2 : List β}
    (h : List.Forall₂ R l1 l2) {a : α} (ha : a ∈ l1) : ∃ b ∈ l2, R a b := by
  induction h with
  | nil => cases ha
  | cons hR hF ih =>
    rcases List.mem_cons.mp ha with rfl | h2
    · exact ⟨_, List.mem_cons_self _ _, hR⟩
    · obtain ⟨b, hb, hRb⟩ := ih h2
      exact ⟨b, List.mem_cons_of_mem _ hb, hRb⟩

/-- Mirror image of `forall₂_exists_right`. -/
theorem forall₂_exists_left {α β : Type} {R : α → β → Prop} {l1 : List α} {l2 : List β}
    (h : List.Forall₂ R l1 l2) {b : β} (hb : b ∈ l2) : ∃ a ∈ l1, R a b := by
  induction h with
  | nil => cases hb
  | cons hR hF ih =>
    rcases List.mem_cons.mp hb with rfl | h2
    · exact ⟨_, List.mem_cons_self _ _, hR⟩
    · obtain ⟨a, ha, hRa⟩ := ih h2
      exact ⟨a, List.mem_cons_of_mem _ ha, hRa⟩

/-- A pointwise relation that determines a projection pointwise determines
the mapped lists. -/
theorem forall₂_map_eq {α β γ : Type} {R : α → β → Prop} {f : α → γ} {g : β → γ}
    {l1 : List α} {l2 : List β} (h : List.Forall₂ R l1 l2)
    (hfg : ∀ a b, R a b → g b = f a) : l2.map g = l1.map f := by
  induction h with
  | nil => rfl
  | cons hR hF ih => simp [hfg _ _ hR, ih]

/-- A list with no duplicates counts exactly one element satisfying `p` when
some member satisfies it and every member satisfying it is that member. -/
theorem countP_unique {α : Type} {l : List α} {p : α → Bool} {x : α}
    (hnd : l.Nodup) (hx : x ∈ l) (hpx : p x = true)
    (huniq : ∀ y ∈ l, p y = true → y = x) : l.countP p = 1 := by
  induction l with
  | nil => cases hx
  | cons a t ih =>
    by_cases hax : a = x
    · subst hax
      have ht0 : t.countP p = 0 := by
        rw [List.countP_eq_zero]
        intro y hy hpy
        rw [huniq y (List.mem_cons_of_mem _ hy) hpy] at hy
        exact (List.nodup_cons.mp hnd).1 hy
      simp [List.countP_cons, hpx, ht0]
    · have hxt : x ∈ t := by
        rcases List.mem_cons.mp hx with h | h
        · exact absurd h.symm hax
        · exact h
      have ha : p a = false := by
        by_contra hcon
        exact hax (huniq a (List.mem_cons_self _ _) (by simpa using hcon))
      have ih2 := ih (List.nodup_cons.mp hnd).2 hxt
        (fun y hy hpy => huniq y (List.mem_cons_of_mem _ hy) hpy)
      simp [List.countP_cons, ha, ih2]

/-- Counting after two mapping passes, when the composite's effect on the
predicate is known pointwise. -/
theorem countP_map_map {α : Type} (g2 g3 : α → α) (p q : α → Bool)
    (h : ∀ b, p (g3 (g2 b)) = q b) :
    ∀ l : List α, ((l.map g2).map g3).countP p = l.countP q := by
  intro l
  induction l with
  | nil => rfl
  | cons b t ih => simp only [List.map_cons, List.countP_cons, ih, h b]

/-- Counting after one mapping pass, when the map's effect on the predicate
is known for the list's members. -/
theorem countP_map_mem {α : Type} (g : α → α) (p q : α → Bool) :
    ∀ l : List α, (∀ b ∈ l, p (g b) = q b) → (l.map g).countP p = l.countP q := by
  intro l
  induction l with
  | nil => intro _; rfl
  | cons b t ih =>
    intro h
    have hb := h b (List.mem_cons_self _ _)
    have ht := ih (fun y hy => h y (List.mem_cons_of_mem _ hy))
    simp only [List.map_cons, List.countP_cons, hb, ht]

/-- Two members both satisfying `p` coincide when `p` counts exactly one. -/
theorem eq_of_countP_eq_one {α : Type} {l : List α} {p : α → Bool}
    (h : l.countP p = 1) {a b : α} (ha : a ∈ l) (hpa : p a = true)
    (hb : b ∈ l) (hpb : p b = true) : a = b := by
  rw [List.countP_eq_length_filter] at h
  obtain ⟨c, hc⟩ := List.length_eq_one.mp h
  have ha2 : a ∈ l.filter p := List.mem_filter.mpr ⟨ha, hpa⟩
  have hb2 : b ∈ l.filter p := List.mem_filter.mpr ⟨hb, hpb⟩
  rw [hc, List.mem_singleton] at ha2 hb2
  rw [ha2, hb2]

/-- Counting the activated rows after the deactivate-then-activate maps of
`select_list`: whatever the intermediate list's active flags, exactly the
copies of the owned target remain active, and with unique ids that is one
row. -/
theorem count_active_after_select (lists L1 : List ListRow) (u target : Nat)
    (hnd : (lists.map fun l => l.id).Nodup)
    (hcorr : List.Forall₂ (fun a b => b.id = a.id ∧ b.userId = a.userId) lists L1)
    (hex : ∃ lt ∈ lists, lt.id = target ∧ lt.userId = u) :
    (((L1.map (deactivateRow u)).map (activateRow u target)).filter
      fun l => l.isActive && decide (l.userId = u)).length = 1 := by
  obtain ⟨lt, hlt, hltid, hltu⟩ := hex
  have hids : L1.map (fun l => l.id) = lists.map (fun l => l.id) :=
    forall₂_map_eq hcorr (fun a b hR => hR.1)
  have hnd1 : (L1.map fun l => l.id).Nodup := by rw [hids]; exact hnd
  have hndL1 : L1.Nodup := List.Nodup.of_map _ hnd1
  have hpoint : ∀ b : ListRow,
      ((fun l => l.isActive && decide (l.userId = u))
        (activateRow u target (deactivateRow u b))) =
      decide (b.id = target ∧ b.userId = u) := by
    intro b
    by_cases hu : b.userId = u
    · by_cases hid : b.id = target
      · simp [activateRow, deactivateRow, hu, hid]
      · simp [activateRow, deactivateRow, hu, hid]
    · simp [activateRow, deactivateRow, hu]
  rw [← List.countP_eq_length_filter,
    countP_map_map (deactivateRow u) (activateRow u target)
      (fun l => l.isActive && decide (l.userId = u))
      (fun b => decide (b.id = target ∧ b.userId = u)) hpoint L1]
  obtain ⟨bx, hbx, hbid, hbu⟩ := forall₂_exists_right hcorr hlt
  refine countP_unique hndL1 hbx (by simp [hbid, hltid, hbu, hltu]) ?_
  intro y hy hpy
  simp only [decide_eq_true_eq] at hpy
  exact List.inj_on_of_nodup_map hnd1 hy hbx (by rw [hpy.1, hbid, hltid])

/-- C9 (amended): with unique list ids, selecting an owned list always leaves
the owner with exactly one active list (the activation deactivates every
other list of the owner in the same transition), and deleting a list
preserves the exactly-one-active invariant (deleting the active list promotes
another owned list when one remains).  Creating a list, however, does not
touch any active flag, so creation can break the invariant
(`c9_counterexample`). -/
theorem c9_amended (lists : List ListRow) (u : Nat)
    (hnd : (lists.map fun l => l.id).Nodup) :
    (∀ target now, (∃ lt ∈ lists, lt.id = target ∧ lt.userId = u) →
      ((select_list lists u target now).filter
        fun l => l.isActive && decide (l.userId = u)).length = 1) ∧
    (∀ target, ActiveInv lists u → ActiveInv (delete_list lists u target) u) := by
  constructor
  · intro target now hex
    obtain ⟨lt, hlt, hltid, hltu⟩ := hex
    have hfind : (lists.find? fun l => decide (l.id = target ∧ l.userId = u)).isSome := by
      rw [List.find?_isSome]
      exact ⟨lt, hlt, by simp [hltid, hltu]⟩
    obtain ⟨t0, ht0⟩ := Option.isSome_iff_exists.mp hfind
    have hrefl : List.Forall₂ (fun (a b : ListRow) => b.id = a.id ∧ b.userId = a.userId)
        lists lists := List.forall₂_same.mpr (fun a _ => ⟨rfl, rfl⟩)
    cases hca : lists.find? (fun l => l.isActive && decide (l.userId = u)) with
    | none =>
      rw [select_list, ht0, hca]
      exact count_active_after_select lists lists u target hnd hrefl ⟨lt, hlt, hltid, hltu⟩
    | some ca =>
      by_cases hrun : isRunning ca.timer_state
      · rw [select_list, ht0, hca]
        simp only [hrun, if_true]
        refine count_active_after_select lists _ u target hnd ?_ ⟨lt, hlt, hltid, hltu⟩
        rw [List.forall₂_map_right_iff]
        refine List.forall₂_same.mpr (fun a _ => ⟨?_, ?_⟩) <;>
          · unfold pauseActiveRow
            split <;> rfl
      · rw [select_list, ht0, hca]
        simp only [hrun, if_false]
        exact count_active_after_select lists lists u target hnd hrefl ⟨lt, hlt, hltid, hltu⟩
  · intro target hpre
    rw [delete_list]
    cases hf : lists.find? (fun l => decide (l.id = target ∧ l.userId = u)) with
    | none => exact hpre
    | some row =>
      dsimp only
      have hrowMem : row ∈ lists := List.mem_of_find?_eq_some hf
      have hrowProp : row.id = target ∧ row.userId = u := by
        have := List.find?_some hf
        simpa using this
      have hpre1 : (lists.filter fun l => decide (l.userId = u)) ≠ [] :=
        List.ne_nil_of_mem (List.mem_filter.mpr ⟨hrowMem, by simp [hrowProp.2]⟩)
      have hcount : (lists.filter fun l => l.isActive && decide (l.userId = u)).length = 1 :=
        hpre hpre1
      have hcountP : lists.countP (fun l => l.isActive && decide (l.userId = u)) = 1 := by
        rw [List.countP_eq_length_filter]
        exact hcount
      have hsub : (lists.filter fun l => decide (¬ (l.id = target ∧ l.userId = u))).Sublist
          lists := List.filter_sublist lists
      have hnd1 : ((lists.filter fun l =>
          decide (¬ (l.id = target ∧ l.userId = u))).map fun l => l.id).Nodup :=
        (hsub.map fun l => l.id).nodup hnd
      by_cases hact : row.isActive
      · rw [if_pos hact]
        cases hnf : (lists.filter fun l =>
            decide (¬ (l.id = target ∧ l.userId = u))).find?
              (fun l => decide (l.userId = u)) with
        | none =>
          intro hne
          exfalso
          obtain ⟨b, hb⟩ := List.exists_mem_of_ne_nil _ hne
          have hb2 := List.mem_filter.mp hb
          have := List.find?_eq_none.mp hnf b hb2.1
          exact this hb2.2
        | some na =>
          intro _
          have hnaMem : na ∈ lists.filter fun l =>
              decide (¬ (l.id = target ∧ l.userId = u)) := List.mem_of_find?_eq_some hnf
          have hnaU : na.userId = u := by simpa using List.find?_some hnf
          have hnd2 : (lists.filter fun l =>
              decide (¬ (l.id = target ∧ l.userId = u))).Nodup :=
            List.Nodup.of_map _ hnd1
          have hpoint : ∀ b ∈ (lists.filter fun l =>
              decide (¬ (l.id = target ∧ l.userId = u))),
              ((fun l => l.isActive && decide (l.userId = u)) (activateRow u na.id b)) =
              (fun l => decide (l.id = na.id ∧ l.userId = u)) b := by
            intro b hb
            by_cases hcond : b.id = na.id ∧ b.userId = u
            · simp [activateRow, hcond]
            · simp only [activateRow, if_neg hcond, decide_eq_false hcond]
              by_cases hb2 : (b.isActive && decide (b.userId = u)) = true
              · exfalso
                simp only [Bool.and_eq_true, decide_eq_true_eq] at hb2
                have hbl : b ∈ lists := (List.mem_filter.mp hb).1
                have hbrow : b = row := eq_of_countP_eq_one hcountP hbl
                  (by simp [hb2.1, hb2.2]) hrowMem (by simp [hact, hrowProp.2])
                have hbkeep := (List.mem_filter.mp hb).2
                rw [hbrow] at hbkeep
                simp [hrowProp.1, hrowProp.2] at hbkeep
              · simp only [Bool.not_eq_true] at hb2
                exact hb2
          rw [← List.countP_eq_length_filter, countP_map_mem (activateRow u na.id) _
            (fun l => decide (l.id = na.id ∧ l.userId = u)) _ hpoint]
          refine countP_unique hnd2 hnaMem (by simp [hnaU]) ?_
          intro y hy hpy
          simp only [decide_eq_true_eq] at hpy
          exact List.inj_on_of_nodup_map hnd1 hy hnaMem hpy.1
      · rw [if_neg hact]
        intro _
        rw [← List.countP_eq_length_filter, List.countP_filter]
        have hpoint : ∀ a ∈ lists,
            ((a.isActive && decide (a.userId = u)) &&
              decide (¬ (a.id = target ∧ a.userId = u))) = true ↔
            (a.isActive && decide (a.userId = u)) = true := by
          intro a ha
          constructor
          · intro h
            simp only [Bool.and_eq_true] at h ⊢
            exact h.1
          · intro h
            simp only [Bool.and_eq_true, decide_eq_true_eq] at h ⊢
            refine ⟨h, ?_⟩
            intro hcon
            have harow : a = row := List.inj_on_of_nodup_map hnd ha hrowMem
              (by rw [hcon.1, hrowProp.1])
            rw [harow] at h
            exact hact h.1
        rw [List.countP_congr hpoint, hcountP]

/-- Witness for `c9_amended` on the concrete one-list store `exC9active`. -/
theorem c9_witness :
    ((select_list exC9active 7 1 0).filter
      fun l => l.isActive && decide (l.userId = 7)).length = 1 ∧
    ActiveInv (delete_list exC9active 7 1) 7 :=
  ⟨(c9_amended exC9active 7 (by decide)).1 1 0 (by decide),
   (c9_amended exC9active 7 (by decide)).2 1 (by decide)⟩

/-- Unfolding `update_descendants_paths` at fuel zero. -/
theorem udp_zero (p : Nat) (pp : List Nat) (pl : Nat) (ts : List Task) :
    update_descendants_paths 0 p pp pl ts = none := rfl

/-- Unfolding `update_descendants_paths` at successor fuel: fetch the direct
descendants and walk them. -/
theorem udp_succ (fuel p : Nat) (pp : List Nat) (pl : Nat) (ts : List Task) :
    update_descendants_paths (fuel + 1) p pp pl ts =
      udpGo (update_descendants_paths fuel)
        (ts.filter fun t => decide (t.parent = some p)) pp pl ts := rfl

/-- `setPathLevel` only rewrites `path` and `level`. -/
theorem setPathLevel_coreOf (i : Nat) (pth : List Nat) (lv : Nat) (ts : List Task) :
    (setPathLevel i pth lv ts).map coreOf = ts.map coreOf := by
  unfold setPathLevel
  rw [List.map_map]
  refine List.map_congr_left ?_
  intro t _
  simp only [Function.comp_apply]
  split <;> rfl

/-- `setParentPathLevel` keeps id, list, owner and order index. -/
theorem setParentPathLevel_posCore (i : Nat) (par : Option Nat) (pth : List Nat) (lv : Nat)
    (ts : List Task) : (setParentPathLevel i par pth lv ts).map posCore = ts.map posCore := by
  unfold setParentPathLevel
  rw [List.map_map]
  refine List.map_congr_left ?_
  intro t _
  simp only [Function.comp_apply]
  split <;> rfl

/-- `posCore` is determined by `coreOf`. -/
theorem posCore_of_coreOf {a b : Task} (h : coreOf a = coreOf b) : posCore a = posCore b := by
  have h2 := congrArg Prod.fst h
  have h3 := congrArg (fun c => c.2.2.1) h
  have h4 := congrArg (fun c => c.2.2.2.1) h
  have h5 := congrArg (fun c => c.2.2.2.2.1) h
  simp only [coreOf] at h2 h3 h4 h5
  simp only [posCore, h2, h3, h4, h5]

/-- Lists with equal `coreOf` images have equal `posCore` images. -/
theorem map_posCore_of_map_coreOf {l1 l2 : List Task}
    (h : l1.map coreOf = l2.map coreOf) : l1.map posCore = l2.map posCore := by
  induction l1 generalizing l2 with
  | nil =>
    cases l2 with
    | nil => rfl
    | cons b t => simp at h
  | cons a t ih =>
    cases l2 with
    | nil => simp at h
    | cons b t2 =>
      simp only [List.map_cons, List.cons.injEq] at h ⊢
      exact ⟨posCore_of_coreOf h.1, ih h.2⟩

/-- The walk `udpGo` keeps every core column, provided its recursive
reference does. -/
theorem udpGo_core (rec : Nat → List Nat → Nat → List Task → Option (List Task))
    (hrec : ∀ pid pp pl ts ts', rec pid pp pl ts = some ts' →
      ts'.map coreOf = ts.map coreOf) :
    ∀ (ds : List Task) (pp : List Nat) (pl : Nat) (ts ts' : List Task),
      udpGo rec ds pp pl ts = some ts' → ts'.map coreOf = ts.map coreOf := by
  intro ds
  induction ds with
  | nil =>
    intro pp pl ts ts' h
    cases h
    rfl
  | cons d ds ih =>
    intro pp pl ts ts' h
    rw [udpGo] at h
    cases hr : rec d.id (pp ++ [d.id]) (pl + 1)
        (setPathLevel d.id (pp ++ [d.id]) (pl + 1) ts) with
    | none => rw [hr] at h; cases h
    | some ts2 =>
      rw [hr] at h
      calc ts'.map coreOf = ts2.map coreOf := ih pp pl ts2 ts' h
        _ = (setPathLevel d.id (pp ++ [d.id]) (pl + 1) ts).map coreOf := hrec _ _ _ _ _ hr
        _ = ts.map coreOf := setPathLevel_coreOf _ _ _ _

/-- `update_descendants_paths` keeps every core column of every row. -/
theorem udp_core (fuel : Nat) :
    ∀ (pid : Nat) (pp : List Nat) (pl : Nat) (ts ts' : List Task),
      update_descendants_paths fuel pid pp pl ts = some ts' →
      ts'.map coreOf = ts.map coreOf := by
  induction fuel with
  | zero => intro pid pp pl ts ts' h; rw [udp_zero] at h; cases h
  | succ fuel ih =>
    intro pid pp pl ts ts' h
    rw [udp_succ] at h
    exact udpGo_core (update_descendants_paths fuel) ih _ _ _ _ _ h

/-- Equal images under `f` pair the lists elementwise by equal images. -/
theorem forall₂_of_map_eq {α β : Type} {f : α → β} {l1 l2 : List α}
    (h : l1.map f = l2.map f) : List.Forall₂ (fun a b => f a = f b) l1 l2 := by
  induction l1 generalizing l2 with
  | nil =>
    cases l2 with
    | nil => exact List.Forall₂.nil
    | cons b t => simp at h
  | cons a t ih =>
    cases l2 with
    | nil => simp at h
    | cons b t2 =>
      simp only [List.map_cons, List.cons.injEq] at h
      exact List.Forall₂.cons h.1 (ih h.2)

/-- `a` is at most the running maximum. -/
theorem foldl_max_init (xs : List Int) : ∀ a : Int, a ≤ xs.foldl max a := by
  induction xs with
  | nil => intro a; exact le_refl a
  | cons y ys ih => intro a; exact le_trans (le_max_left a y) (ih (max a y))

/-- Every member is at most the fold of `max`. -/
theorem le_foldl_max {x : Int} {xs : List Int} (hx : x ∈ xs) :
    ∀ a : Int, x ≤ xs.foldl max a := by
  induction xs with
  | nil => cases hx
  | cons y ys ih =>
    intro a
    rcases List.mem_cons.mp hx with rfl | h
    · exact le_trans (le_max_right a x) (foldl_max_init ys (max a x))
    · exact ih h (max a y)

/-- Unpacking `posCore` equality into the four column equalities. -/
theorem posCore_fields {a b : Task} (h : posCore a = posCore b) :
    a.id = b.id ∧ a.listId = b.listId ∧ a.userId = b.userId ∧ a.position = b.position := by
  simp only [posCore, Prod.mk.injEq] at h
  exact ⟨h.1, h.2.1, h.2.2.1, h.2.2.2⟩

/-- The position-rewriting tail of `update_task_hierarchy` with an anchor:
relative to any state whose core columns agree with the pre-state, the moved
task lands right after the anchor and every other task of the caller's list
strictly after the anchor moves up by one. -/
theorem applyPositionUpdate_shift (tasks ts2 : List Task) (u tid aid lid : Nat) (r : Task)
    (hnd : (tasks.map fun t => t.id).Nodup)
    (hpos : ts2.map posCore = tasks.map posCore)
    (hr : r ∈ tasks) (hrid : r.id = aid) (hru : r.userId = u) (hrl : r.listId = lid) :
    List.Forall₂ (fun s s2 =>
      s2.id = s.id ∧ s2.listId = s.listId ∧ s2.userId = s.userId ∧
      s2.position = (if s.id = tid ∧ s.userId = u then r.position + 1
        else if r.position < s.position ∧ s.userId = u ∧ s.listId = lid then s.position + 1
        else s.position)) tasks (applyPositionUpdate u tid (some aid) lid ts2) := by
  have hF : List.Forall₂ (fun a b => posCore a = posCore b) tasks ts2 :=
    forall₂_of_map_eq hpos.symm
  obtain ⟨b0, hb0, hb0R⟩ := forall₂_exists_right hF hr
  obtain ⟨hbid, hblist, hbu, hbpos⟩ := posCore_fields hb0R
  have hfs : (ts2.find? fun t =>
      decide (t.id = aid ∧ t.userId = u ∧ t.listId = lid)).isSome := by
    rw [List.find?_isSome]
    refine ⟨b0, hb0, ?_⟩
    simp [← hbid, ← hbu, ← hblist, hrid, hru, hrl]
  obtain ⟨af, haf⟩ := Option.isSome_iff_exists.mp hfs
  have hafMem : af ∈ ts2 := List.mem_of_find?_eq_some haf
  have hafProp : af.id = aid ∧ af.userId = u ∧ af.listId = lid := by
    simpa using List.find?_some haf
  obtain ⟨a0, ha0, ha0R⟩ := forall₂_exists_left hF hafMem
  have ha0r : a0 = r := by
    refine List.inj_on_of_nodup_map hnd ha0 hr ?_
    rw [(posCore_fields ha0R).1, hafProp.1, hrid]
  have hpr : af.position = r.position := by
    rw [← (posCore_fields ha0R).2.2.2, ha0r]
  rw [applyPositionUpdate]
  simp only [haf]
  rw [List.forall₂_map_right_iff, List.forall₂_map_right_iff]
  refine List.Forall₂.imp ?_ hF
  intro a b hab
  obtain ⟨h1, h2, h3, h4⟩ := posCore_fields hab
  by_cases hbump : af.position < b.position ∧ b.userId = u ∧ b.listId = lid
  · rw [if_pos hbump]
    dsimp only
    by_cases hmovb : b.id = tid ∧ b.userId = u
    · rw [if_pos hmovb]
      refine ⟨h1.symm, h2.symm, h3.symm, ?_⟩
      rw [if_pos ⟨by rw [h1]; exact hmovb.1, by rw [h3]; exact hmovb.2⟩, hpr]
    · rw [if_neg hmovb]
      refine ⟨h1.symm, h2.symm, h3.symm, ?_⟩
      have hnma : ¬ (a.id = tid ∧ a.userId = u) := by
        rw [h1, h3]
        exact hmovb
      have hba : r.position < a.position ∧ a.userId = u ∧ a.listId = lid := by
        rw [h4, h3, h2, ← hpr]
        exact hbump
      rw [if_neg hnma, if_pos hba, h4]
  · rw [if_neg hbump]
    by_cases hmovb : b.id = tid ∧ b.userId = u
    · rw [if_pos hmovb]
      refine ⟨h1.symm, h2.symm, h3.symm, ?_⟩
      rw [if_pos ⟨by rw [h1]; exact hmovb.1, by rw [h3]; exact hmovb.2⟩, hpr]
    · rw [if_neg hmovb]
      refine ⟨h1.symm, h2.symm, h3.symm, ?_⟩
      have hnma : ¬ (a.id = tid ∧ a.userId = u) := by
        rw [h1, h3]
        exact hmovb
      have hnba : ¬ (r.position < a.position ∧ a.userId = u ∧ a.listId = lid) := by
        rw [h4, h3, h2, ← hpr]
        exact hbump
      rw [if_neg hnma, if_neg hnba, h4]

/-- C8 (amended): a newly inserted root task receives order index one more
than the maximum order index over the caller's whole list (subtasks
included), strictly above every task of the list but not, in general,
`max sibling order + 1`, so root order indices need not stay contiguous
(`c8_counterexample`); a newly inserted subtask does receive
`max sibling order + 1` (level `parent.level + 1`, path stamped with its own
id after creation); and an insert-after move shifts up by one every task of
the caller's list with order index strictly greater than the anchor's — not
only the moved task's siblings — with the moved task landing right after the
anchor. -/
theorem c8_amended :
    (∀ (tasks : List Task) (l u : Nat) (c : String) (nid : Nat),
      ∃ newRow, add_task tasks l u c nid = tasks ++ [newRow] ∧
        newRow.id = nid ∧
        newRow.position = maxPosition tasks l u + 1 ∧
        ∀ r ∈ tasks, r.listId = l → r.userId = u → r.position < newRow.position) ∧
    (∀ (tasks : List Task) (u pid : Nat) (c : String) (nid : Nat) (out : List Task),
      create_subtask tasks u pid c nid = some out →
      ∃ parent_task newRow, parent_task ∈ tasks ∧ parent_task.id = pid ∧
        parent_task.userId = u ∧
        out = tasks ++ [newRow] ∧
        newRow.id = nid ∧
        newRow.position = maxSiblingPosition tasks parent_task.listId u pid + 1 ∧
        newRow.level = parent_task.level + 1 ∧
        newRow.path = parent_task.path ++ [nid] ∧
        ∀ r ∈ tasks, r.listId = parent_task.listId → r.userId = u →
          r.parent = some pid → r.position < newRow.position) ∧
    (∀ (tasks : List Task) (u tid : Nat) (npid : Option Nat) (aid lid : Nat)
        (out : List Task) (r : Task),
      (tasks.map fun t => t.id).Nodup →
      update_task_hierarchy tasks u tid npid (some aid) lid = .ok out →
      r ∈ tasks → r.id = aid → r.userId = u → r.listId = lid →
      List.Forall₂ (fun s s2 =>
        s2.id = s.id ∧ s2.listId = s.listId ∧ s2.userId = s.userId ∧
        s2.position = (if s.id = tid ∧ s.userId = u then r.position + 1
          else if r.position < s.position ∧ s.userId = u ∧ s.listId = lid then s.position + 1
          else s.position)) tasks out) := by
  refine ⟨?_, ?_, ?_⟩
  · intro tasks l u c nid
    refine ⟨_, rfl, rfl, rfl, ?_⟩
    intro r hr hl hu
    have hmem : r.position ∈ (tasks.filter fun t =>
        decide (t.listId = l ∧ t.userId = u)).map (fun t => t.position) :=
      List.mem_map_of_mem _ (List.mem_filter.mpr ⟨hr, by simp [hl, hu]⟩)
    have := le_foldl_max hmem (-1)
    calc r.position ≤ maxPosition tasks l u := this
      _ < maxPosition tasks l u + 1 := lt_add_one _
  · intro tasks u pid c nid out h
    rw [create_subtask] at h
    cases hf : tasks.find? (fun t => decide (t.id = pid ∧ t.userId = u)) with
    | none => rw [hf] at h; cases h
    | some pt =>
      rw [hf] at h
      cases h
      have hpt : pt.id = pid ∧ pt.userId = u := by simpa using List.find?_some hf
      refine ⟨pt, _, List.mem_of_find?_eq_some hf, hpt.1, hpt.2, rfl, rfl, rfl, rfl, rfl, ?_⟩
      intro r hr hl hu hp
      have hmem : r.position ∈ (tasks.filter fun t =>
          decide (t.listId = pt.listId ∧ t.userId = u ∧ t.parent = some pid)).map
            (fun t => t.position) :=
        List.mem_map_of_mem _ (List.mem_filter.mpr ⟨hr, by simp [hl, hu, hp]⟩)
      have := le_foldl_max hmem (-1)
      calc r.position ≤ maxSiblingPosition tasks pt.listId u pid := this
        _ < maxSiblingPosition tasks pt.listId u pid + 1 := lt_add_one _
  · intro tasks u tid npid aid lid out r hnd hok hr hrid hru hrl
    rw [update_task_hierarchy.eq_def] at hok
    cases hft : tasks.find? (fun t => decide (t.id = tid ∧ t.userId = u)) with
    | none => rw [hft] at hok; cases hok
    | some t0 =>
      rw [hft] at hok
      cases npid with
      | none =>
        dsimp only at hok
        cases hudp : update_descendants_paths (tasks.length + 1) tid [tid] 0
            (setParentPathLevel tid none [tid] 0 tasks) with
        | none => rw [hudp] at hok; cases hok
        | some ts2 =>
          rw [hudp] at hok
          cases hok
          have hpos : ts2.map posCore = tasks.map posCore := by
            calc ts2.map posCore
                = (setParentPathLevel tid none [tid] 0 tasks).map posCore :=
                  map_posCore_of_map_coreOf (udp_core _ _ _ _ _ _ hudp)
              _ = tasks.map posCore := setParentPathLevel_posCore _ _ _ _ _
          exact applyPositionUpdate_shift tasks ts2 u tid aid lid r hnd hpos hr hrid hru hrl
      | some pid =>
        dsimp only at hok
        cases hfp : tasks.find? (fun t => decide (t.id = pid ∧ t.userId = u)) with
        | none => rw [hfp] at hok; cases hok
        | some np =>
          rw [hfp] at hok
          dsimp only at hok
          by_cases hdesc : is_descendant pid tid tasks
          · rw [if_pos hdesc] at hok; cases hok
          · rw [if_neg hdesc] at hok
            cases hudp : update_descendants_paths (tasks.length + 1) tid
                (np.path ++ [tid]) (np.level + 1)
                (setParentPathLevel tid (some pid) (np.path ++ [tid]) (np.level + 1) tasks) with
            | none => rw [hudp] at hok; cases hok
            | some ts2 =>
              rw [hudp] at hok
              cases hok
              have hpos : ts2.map posCore = tasks.map posCore := by
                calc ts2.map posCore
                    = (setParentPathLevel tid (some pid) (np.path ++ [tid])
                        (np.level + 1) tasks).map posCore :=
                      map_posCore_of_map_coreOf (udp_core _ _ _ _ _ _ hudp)
                  _ = tasks.map posCore := setParentPathLevel_posCore _ _ _ _ _
              exact applyPositionUpdate_shift tasks ts2 u tid aid lid r hnd hpos hr hrid hru hrl

/-- Witness for `c8_amended`: a subtask created under root 1 of `exC8`
receives one more than its greatest sibling order index. -/
theorem c8_witness :
    ∃ out, create_subtask exC8 6 1 "w" 9 = some out ∧
      ∃ parent_task newRow, parent_task ∈ exC8 ∧ out = exC8 ++ [newRow] ∧
        newRow.position = maxSiblingPosition exC8 parent_task.listId 6 1 + 1 := by
  refine ⟨_, rfl, ?_⟩
  obtain ⟨pt, nr, hmem, hid, hu, hout, hnid, hpos, hlvl, hpath, hlt⟩ :=
    c8_amended.2.1 exC8 6 1 "w" 9 _ rfl
  exact ⟨pt, nr, hmem, hout, hpos⟩

/-- Closed form of the `reorder_tasks` loop: with distinct ids in the order
sequence, each listed task of the caller's list ends at its index in the
sequence (offset by the starting index `i`) and every other row is kept. -/
theorem reorderGo_closed (u lid : Nat) :
    ∀ (order : List Nat), order.Nodup → ∀ (i : Nat) (ts : List Task),
      reorderGo u lid i order ts = ts.map (fun t =>
        if t.id ∈ order ∧ t.userId = u ∧ t.listId = lid then
          { t with position := ((i + order.indexOf t.id : Nat) : Int) } else t) := by
  intro order
  induction order with
  | nil =>
    intro _ i ts
    rw [reorderGo]
    simp
  | cons a rest ih =>
    intro hnd i ts
    rw [reorderGo, ih hnd.of_cons (i + 1), List.map_map]
    refine List.map_congr_left ?_
    intro t _
    simp only [Function.comp_apply]
    have hnotin : a ∉ rest := (List.nodup_cons.mp hnd).1
    by_cases h1 : t.id = a ∧ t.userId = u ∧ t.listId = lid
    · rw [if_pos h1]
      dsimp only
      have hkeep : ¬ (t.id ∈ rest ∧ t.userId = u ∧ t.listId = lid) := by
        intro hcon
        rw [h1.1] at hcon
        exact hnotin hcon.1
      rw [if_neg hkeep,
        if_pos ⟨by rw [h1.1]; exact List.mem_cons_self a rest, h1.2.1, h1.2.2⟩,
        h1.1, List.indexOf_cons_self]
      simp
    · rw [if_neg h1]
      by_cases huser : t.userId = u ∧ t.listId = lid
      · have hida : t.id ≠ a := by
          intro hcon
          exact h1 ⟨hcon, huser.1, huser.2⟩
        by_cases hmem : t.id ∈ rest
        · rw [if_pos ⟨hmem, huser.1, huser.2⟩,
            if_pos ⟨List.mem_cons_of_mem a hmem, huser.1, huser.2⟩,
            List.indexOf_cons_ne rest (fun h => hida h.symm)]
          have : i + 1 + List.indexOf t.id rest = i + (List.indexOf t.id rest).succ := by
            omega
          rw [this]
        · rw [if_neg (fun hcon => hmem hcon.1),
            if_neg (fun hcon => ?_)]
          rcases List.mem_cons.mp hcon.1 with h | h
          · exact hida h
          · exact hmem h
      · rw [if_neg (fun hcon => huser ⟨hcon.2.1, hcon.2.2⟩),
          if_neg (fun hcon => huser ⟨hcon.2.1, hcon.2.2⟩)]

/-- The byte-wise order on path strings is transitive. -/
theorem lexLt_trans : ∀ (a b c : List Char),
    lexLt a b = true → lexLt b c = true → lexLt a c = true := by
  intro a
  induction a with
  | nil =>
    intro b c hab hbc
    cases b with
    | nil => cases hab
    | cons y ys =>
      cases c with
      | nil => cases hbc
      | cons z zs => rfl
  | cons x xs ih =>
    intro b c hab hbc
    cases b with
    | nil => cases hab
    | cons y ys =>
      cases c with
      | nil => cases hbc
      | cons z zs =>
        simp only [lexLt, Bool.or_eq_true, Bool.and_eq_true, decide_eq_true_eq] at hab hbc ⊢
        rcases hab with h1 | ⟨h1, h1r⟩ <;> rcases hbc with h2 | ⟨h2, h2r⟩
        · exact Or.inl (lt_trans h1 h2)
        · exact Or.inl (h2 ▸ h1)
        · exact Or.inl (h1 ▸ h2)
        · exact Or.inr ⟨h1.trans h2, ih ys zs h1r h2r⟩

/-- The byte-wise order on path strings is trichotomous. -/
theorem lexLt_trichotomy : ∀ (a b : List Char),
    lexLt a b = true ∨ a = b ∨ lexLt b a = true := by
  intro a
  induction a with
  | nil =>
    intro b
    cases b with
    | nil => exact Or.inr (Or.inl rfl)
    | cons y ys => exact Or.inl rfl
  | cons x xs ih =>
    intro b
    cases b with
    | nil => exact Or.inr (Or.inr rfl)
    | cons y ys =>
      rcases Nat.lt_trichotomy x.toNat y.toNat with h | h | h
      · exact Or.inl (by simp [lexLt, h])
      · have hxy : x = y := Char.ext (UInt32.ext h)
        rcases ih ys with h2 | h2 | h2
        · exact Or.inl (by simp [lexLt, h, h2])
        · exact Or.inr (Or.inl (by rw [hxy, h2]))
        · exact Or.inr (Or.inr (by simp [lexLt, h.symm, hxy, h2]))
      · exact Or.inr (Or.inr (by simp [lexLt, h]))

/-- The byte-wise order is irreflexive. -/
theorem lexLt_irrefl : ∀ a : List Char, lexLt a a = false := by
  intro a
  induction a with
  | nil => rfl
  | cons x xs ih => simp [lexLt, ih]

/-- `hierLe` holds when the first key decides. -/
theorem hierLe_intro_lt {a b : Task} (h : hierKey1 a < hierKey1 b) : hierLe a b = true := by
  unfold hierLe
  rw [if_pos (show hierKey1 a ≠ hierKey1 b from ne_of_lt h)]
  simp [h]

/-- `hierLe` holds when the first keys tie and the path string decides. -/
theorem hierLe_intro_path {a b : Task} (h1 : hierKey1 a = hierKey1 b)
    (h2 : lexLt (pathChars a.path) (pathChars b.path) = true) : hierLe a b = true := by
  have hne : pathChars a.path ≠ pathChars b.path := by
    intro hcon
    rw [hcon] at h2
    simp [lexLt_irrefl] at h2
  unfold hierLe
  rw [if_neg (not_not_intro h1), if_pos hne]
  exact h2

/-- `hierLe` holds when the first two keys tie and the third is at most. -/
theorem hierLe_intro_eq {a b : Task} (h1 : hierKey1 a = hierKey1 b)
    (h2 : pathChars a.path = pathChars b.path) (h3 : hierKey3 a ≤ hierKey3 b) :
    hierLe a b = true := by
  unfold hierLe
  rw [if_neg (not_not_intro h1), if_neg (not_not_intro h2)]
  simp [h3]

/-- Decomposing a `hierLe` fact into the three deciding levels. -/
theorem hierLe_cases {a b : Task} (h : hierLe a b = true) :
    hierKey1 a < hierKey1 b ∨
    (hierKey1 a = hierKey1 b ∧ lexLt (pathChars a.path) (pathChars b.path) = true) ∨
    (hierKey1 a = hierKey1 b ∧ pathChars a.path = pathChars b.path ∧
      hierKey3 a ≤ hierKey3 b) := by
  unfold hierLe at h
  by_cases h1 : hierKey1 a = hierKey1 b
  · rw [if_neg (not_not_intro h1)] at h
    by_cases h2 : pathChars a.path = pathChars b.path
    · rw [if_neg (not_not_intro h2)] at h
      simp only [decide_eq_true_eq] at h
      exact Or.inr (Or.inr ⟨h1, h2, h⟩)
    · rw [if_pos h2] at h
      exact Or.inr (Or.inl ⟨h1, h⟩)
  · rw [if_pos h1] at h
    simp only [decide_eq_true_eq] at h
    exact Or.inl h

/-- The `ORDER BY` key comparison is total. -/
theorem hierLe_total (a b : Task) : hierLe a b = true ∨ hierLe b a = true := by
  rcases lt_trichotomy (hierKey1 a) (hierKey1 b) with h | h | h
  · exact Or.inl (hierLe_intro_lt h)
  · rcases lexLt_trichotomy (pathChars a.path) (pathChars b.path) with h2 | h2 | h2
    · exact Or.inl (hierLe_intro_path h h2)
    · rcases le_total (hierKey3 a) (hierKey3 b) with h3 | h3
      · exact Or.inl (hierLe_intro_eq h h2 h3)
      · exact Or.inr (hierLe_intro_eq h.symm h2.symm h3)
    · exact Or.inr (hierLe_intro_path h.symm h2)
  · exact Or.inr (hierLe_intro_lt h)

/-- The `ORDER BY` key comparison is transitive. -/
theorem hierLe_trans {a b c : Task} (hab : hierLe a b = true) (hbc : hierLe b c = true) :
    hierLe a c = true := by
  rcases hierLe_cases hab with h | ⟨h, hp⟩ | ⟨h, hp, hk⟩ <;>
    rcases hierLe_cases hbc with g | ⟨g, gp⟩ | ⟨g, gp, gk⟩
  · exact hierLe_intro_lt (lt_trans h g)
  · exact hierLe_intro_lt (lt_of_lt_of_eq h g)
  · exact hierLe_intro_lt (lt_of_lt_of_eq h g)
  · exact hierLe_intro_lt (lt_of_eq_of_lt h g)
  · exact hierLe_intro_path (h.trans g) (lexLt_trans _ _ _ hp gp)
  · exact hierLe_intro_path (h.trans g) (by rw [← gp]; exact hp)
  · exact hierLe_intro_lt (lt_of_eq_of_lt h g)
  · exact hierLe_intro_path (h.trans g) (by rw [hp]; exact gp)
  · exact hierLe_intro_eq (h.trans g) (hp.trans gp) (le_trans hk gk)

/-- Membership is preserved by the sorted insertion. -/
theorem mem_insertSorted : ∀ (l : List Task) (x a : Task),
    x ∈ insertSorted a l ↔ x = a ∨ x ∈ l := by
  intro l
  induction l with
  | nil =>
    intro x a
    simp [insertSorted]
  | cons b bs ih =>
    intro x a
    rw [insertSorted]
    by_cases h : hierLe a b = true
    · rw [if_pos h]
      simp [List.mem_cons]
    · rw [if_neg h]
      simp only [List.mem_cons, ih x a]
      tauto

/-- Sorted insertion keeps the list sorted by the `ORDER BY` key. -/
theorem pairwise_insertSorted (a : Task) :
    ∀ l : List Task, l.Pairwise (fun x y => hierLe x y = true) →
      (insertSorted a l).Pairwise (fun x y => hierLe x y = true) := by
  intro l
  induction l with
  | nil =>
    intro _
    simp [insertSorted]
  | cons b bs ih =>
    intro hs
    rcases List.pairwise_cons.mp hs with ⟨hb, hbs⟩
    rw [insertSorted]
    by_cases h : hierLe a b = true
    · rw [if_pos h]
      refine List.pairwise_cons.mpr ⟨?_, hs⟩
      intro y hy
      rcases List.mem_cons.mp hy with rfl | hy2
      · exact h
      · exact hierLe_trans h (hb y hy2)
    · rw [if_neg h]
      refine List.pairwise_cons.mpr ⟨?_, ih hbs⟩
      intro y hy
      rcases (mem_insertSorted bs y a).mp hy with hya | hy2
      · rw [hya]
        rcases hierLe_total a b with h2 | h2
        · exact absurd h2 h
        · exact h2
      · exact hb y hy2

/-- The hierarchy query's sort is sorted by the `ORDER BY` key. -/
theorem pairwise_orderByHierKey : ∀ ts : List Task,
    (orderByHierKey ts).Pairwise (fun x y => hierLe x y = true) := by
  intro ts
  induction ts with
  | nil => simp [orderByHierKey]
  | cons a as ih =>
    rw [orderByHierKey]
    exact pairwise_insertSorted a _ ih

/-- C7 (amended): with distinct ids in the sequence, reorder sets each listed
task of the caller's list to its position in the sequence and leaves every
other task unchanged; re-applying the identical reorder changes nothing; and
a subsequent hierarchy query lists the root tasks among themselves in
ascending order-index order (so root siblings appear in the given relative
order) — but subtask siblings are returned in materialized-path order, not
order-index order (`c7_counterexample`). -/
theorem c7_amended :
    (∀ (tasks : List Task) (u lid : Nat) (task_order : List Nat), task_order.Nodup →
      reorder_tasks tasks u lid task_order = tasks.map (fun t =>
        if t.id ∈ task_order ∧ t.userId = u ∧ t.listId = lid then
          { t with position := ((task_order.indexOf t.id : Nat) : Int) } else t)) ∧
    (∀ (tasks : List Task) (u lid : Nat) (task_order : List Nat), task_order.Nodup →
      reorder_tasks (reorder_tasks tasks u lid task_order) u lid task_order =
        reorder_tasks tasks u lid task_order) ∧
    (∀ (tasks : List Task) (lid u : Nat),
      (get_tasks_with_hierarchy tasks lid u).Pairwise
        (fun a b => a.parent = none → b.parent = none → a.position ≤ b.position)) := by
  have hclosed : ∀ (tasks : List Task) (u lid : Nat) (task_order : List Nat),
      task_order.Nodup →
      reorder_tasks tasks u lid task_order = tasks.map (fun t =>
        if t.id ∈ task_order ∧ t.userId = u ∧ t.listId = lid then
          { t with position := ((task_order.indexOf t.id : Nat) : Int) } else t) := by
    intro tasks u lid task_order hnd
    rw [reorder_tasks, reorderGo_closed u lid task_order hnd 0 tasks]
    refine List.map_congr_left ?_
    intro t _
    by_cases h : t.id ∈ task_order ∧ t.userId = u ∧ t.listId = lid
    · rw [if_pos h, if_pos h]
      simp
    · rw [if_neg h, if_neg h]
  refine ⟨hclosed, ?_, ?_⟩
  · intro tasks u lid task_order hnd
    rw [hclosed tasks u lid task_order hnd,
      hclosed (tasks.map _) u lid task_order hnd, List.map_map]
    refine List.map_congr_left ?_
    intro t _
    simp only [Function.comp_apply]
    by_cases h : t.id ∈ task_order ∧ t.userId = u ∧ t.listId = lid
    · rw [if_pos h]
      dsimp only
      rw [if_pos h]
    · rw [if_neg h, if_neg h]
  · intro tasks lid u
    refine (pairwise_orderByHierKey _).imp ?_
    intro a b hab ha hb
    have hk : hierKey1 a = a.position ∧ hierKey1 b = b.position := by
      unfold hierKey1
      rw [if_pos ha, if_pos hb]
      exact ⟨rfl, rfl⟩
    rcases hierLe_cases hab with h | ⟨h, -⟩ | ⟨h, -, -⟩
    · rw [hk.1, hk.2] at h
      exact le_of_lt h
    · rw [hk.1, hk.2] at h
      exact le_of_eq h
    · rw [hk.1, hk.2] at h
      exact le_of_eq h

/-- Witness for `c7_amended`: the reorder of `exC7` by `[3, 2]` is idempotent
and assigns the listed subtasks their sequence positions. -/
theorem c7_witness :
    reorder_tasks (reorder_tasks exC7 8 4 [3, 2]) 8 4 [3, 2] =
      reorder_tasks exC7 8 4 [3, 2] :=
  c7_amended.2.1 exC7 8 4 [3, 2] (by decide)

/-- Rows with equal core columns agree on id, parent, list and owner. -/
theorem coreOf_fields {a b : Task} (h : coreOf a = coreOf b) :
    a.id = b.id ∧ a.parent = b.parent ∧ a.listId = b.listId ∧ a.userId = b.userId := by
  have h1 := congrArg Prod.fst h
  have h2 := congrArg (fun c => c.2.1) h
  have h3 := congrArg (fun c => c.2.2.1) h
  have h4 := congrArg (fun c => c.2.2.2.1) h
  simp only [coreOf] at h1 h2 h3 h4
  exact ⟨h1, h2, h3, h4⟩

/-- Equal images under `f` give equal images under any projection of `f`. -/
theorem map_proj_of_map_eq {α β γ : Type} {f : α → β} (proj : β → γ) {l1 l2 : List α}
    (h : l1.map f = l2.map f) (g : α → γ) (hg : ∀ a, proj (f a) = g a) :
    l1.map g = l2.map g := by
  induction l1 generalizing l2 with
  | nil =>
    cases l2 with
    | nil => rfl
    | cons b t => simp at h
  | cons a t ih =>
    cases l2 with
    | nil => simp at h
    | cons b t2 =>
      simp only [List.map_cons, List.cons.injEq] at h ⊢
      refine ⟨?_, ih h.2⟩
      rw [← hg, ← hg, h.1]

/-- Equal core images give equal id lists. -/
theorem ids_of_core_eq {l1 l2 : List Task} (h : l1.map coreOf = l2.map coreOf) :
    idsOf l1 = idsOf l2 :=
  map_proj_of_map_eq Prod.fst h (fun t => t.id) (fun _ => rfl)

/-- Equal position-core images give equal id lists. -/
theorem ids_of_posCore_eq {l1 l2 : List Task} (h : l1.map posCore = l2.map posCore) :
    idsOf l1 = idsOf l2 :=
  map_proj_of_map_eq Prod.fst h (fun t => t.id) (fun _ => rfl)

/-- The parent-link graph only depends on the core columns. -/
theorem childRel_iff_core {l1 l2 : List Task} (h : l1.map coreOf = l2.map coreOf)
    (a b : Nat) : childRel l1 a b ↔ childRel l2 a b := by
  have hF := forall₂_of_map_eq h
  constructor
  · rintro ⟨r, hr, hid, hpar⟩
    obtain ⟨r2, hr2, hcore⟩ := forall₂_exists_right hF hr
    obtain ⟨hid2, hpar2, _, _⟩ := coreOf_fields hcore
    exact ⟨r2, hr2, hid2.symm.trans hid, hpar2.symm.trans hpar⟩
  · rintro ⟨r2, hr2, hid, hpar⟩
    obtain ⟨r, hr, hcore⟩ := forall₂_exists_left hF hr2
    obtain ⟨hid2, hpar2, _, _⟩ := coreOf_fields hcore
    exact ⟨r, hr, hid2.trans hid, hpar2.trans hpar⟩

/-- Reachability along parent links only depends on the core columns. -/
theorem reachP_iff_core {l1 l2 : List Task} (h : l1.map coreOf = l2.map coreOf)
    (a b : Nat) : ReachP l1 a b ↔ ReachP l2 a b :=
  ⟨Relation.TransGen.mono (fun x y hxy => (childRel_iff_core h x y).mp hxy),
   Relation.TransGen.mono (fun x y hxy => (childRel_iff_core h x y).mpr hxy)⟩

/-- Reflexive reachability only depends on the core columns. -/
theorem rtg_iff_core {l1 l2 : List Task} (h : l1.map coreOf = l2.map coreOf)
    (a b : Nat) :
    Relation.ReflTransGen (childRel l1) a b ↔ Relation.ReflTransGen (childRel l2) a b :=
  ⟨Relation.ReflTransGen.mono (fun x y hxy => (childRel_iff_core h x y).mp hxy),
   Relation.ReflTransGen.mono (fun x y hxy => (childRel_iff_core h x y).mpr hxy)⟩

/-- Acyclicity only depends on the core columns. -/
theorem acyclicT_of_core {l1 l2 : List Task} (h : l1.map coreOf = l2.map coreOf)
    (hacy : AcyclicT l1) : AcyclicT l2 :=
  fun x hx => hacy x ((reachP_iff_core h x x).mpr hx)

/-- With unique ids, two member rows sharing an id are equal. -/
theorem row_eq_of_id {ts : List Task} (hnd : (idsOf ts).Nodup) {a b : Task}
    (ha : a ∈ ts) (hb : b ∈ ts) (h : a.id = b.id) : a = b :=
  List.inj_on_of_nodup_map hnd ha hb h

/-- With unique ids each node has at most one parent. -/
theorem parent_unique {ts : List Task} (hnd : (idsOf ts).Nodup) {a a2 b : Nat}
    (h1 : childRel ts a b) (h2 : childRel ts a2 b) : a = a2 := by
  obtain ⟨r, hr, hrid, hrpar⟩ := h1
  obtain ⟨r2, hr2, hrid2, hrpar2⟩ := h2
  have heq := row_eq_of_id hnd hr hr2 (hrid.trans hrid2.symm)
  rw [heq] at hrpar
  exact Option.some.inj (hrpar.symm.trans hrpar2)

/-- Head decomposition of a transitive chain. -/
theorem transGen_head_decomp {α : Type} {r : α → α → Prop} {a b : α}
    (h : Relation.TransGen r a b) : ∃ c, r a c ∧ Relation.ReflTransGen r c b := by
  induction h with
  | single hab => exact ⟨_, hab, Relation.ReflTransGen.refl⟩
  | tail _ hbc ih =>
    obtain ⟨c, hac, hcb⟩ := ih
    exact ⟨c, hac, hcb.tail hbc⟩

/-- Two nodes reaching a common node are comparable when ids are unique. -/
theorem reach_comparable {ts : List Task} (hnd : (idsOf ts).Nodup) {a b : Nat} :
    ∀ {x : Nat}, ReachP ts a x → ReachP ts b x →
      a = b ∨ ReachP ts a b ∨ ReachP ts b a := by
  intro x ha
  induction ha with
  | single hax =>
    intro hb
    cases hb with
    | single hbx => exact Or.inl (parent_unique hnd hax hbx)
    | tail hby hyx =>
      have hya := parent_unique hnd hyx hax
      exact Or.inr (Or.inr (hya ▸ hby))
  | tail hay hyx ih =>
    intro hb
    cases hb with
    | single hbx =>
      have hyb := parent_unique hnd hyx hbx
      exact Or.inr (Or.inl (hyb ▸ hay))
    | tail hbz hzx =>
      have hyz := parent_unique hnd hyx hzx
      exact ih (hyz ▸ hbz)

/-- A state evolves into itself. -/
theorem evolves_refl (P : Nat → Prop) (ts : List Task) : Evolves P ts ts :=
  List.forall₂_same.mpr (fun _ _ => ⟨rfl, fun _ => rfl⟩)

/-- Touched sets enlarge along evolution. -/
theorem evolves_mono {P Q : Nat → Prop} {ts ts' : List Task}
    (hPQ : ∀ x, P x → Q x) (h : Evolves P ts ts') : Evolves Q ts ts' :=
  List.Forall₂.imp (fun _ _ hR => ⟨hR.1, fun hq => hR.2 (fun hp => hq (hPQ _ hp))⟩) h

/-- Evolution keeps every core column. -/
theorem evolves_coreOf {P : Nat → Prop} {ts ts' : List Task} (h : Evolves P ts ts') :
    ts'.map coreOf = ts.map coreOf :=
  forall₂_map_eq h (fun _ _ hR => hR.1)

/-- Composing two evolutions touches the union. -/
theorem evolves_trans {P Q : Nat → Prop} {ts ts1 ts2 : List Task}
    (h1 : Evolves P ts ts1) (h2 : Evolves Q ts1 ts2) :
    Evolves (fun x => P x ∨ Q x) ts ts2 := by
  induction h1 generalizing ts2 with
  | nil =>
    cases h2
    exact List.Forall₂.nil
  | cons hR hF ih =>
    cases h2 with
    | cons hR2 hF2 =>
      refine List.Forall₂.cons ⟨hR2.1.trans hR.1, fun hnot => ?_⟩ (ih hF2)
      have hba := hR.2 (fun hp => hnot (Or.inl hp))
      have hb2 := hR2.2 (by rw [hba]; exact fun hq => hnot (Or.inr hq))
      exact hb2.trans hba

/-- An untouched row survives evolution unchanged. -/
theorem evolves_mem_left {P : Nat → Prop} {ts ts' : List Task} (h : Evolves P ts ts')
    {r : Task} (hr : r ∈ ts) (hnp : ¬ P r.id) : r ∈ ts' := by
  obtain ⟨r2, hr2, hR⟩ := forall₂_exists_right h hr
  rw [hR.2 hnp] at hr2
  exact hr2

/-- An untouched row of the new state came unchanged from the old. -/
theorem evolves_mem_right {P : Nat → Prop} {ts ts' : List Task} (h : Evolves P ts ts')
    {r' : Task} (hr : r' ∈ ts') (hnp : ¬ P r'.id) : r' ∈ ts := by
  obtain ⟨a, ha, hR⟩ := forall₂_exists_left h hr
  have hid := (coreOf_fields hR.1).1
  rw [hid] at hnp
  rw [hR.2 hnp]
  exact ha

/-- The single `UPDATE ... WHERE id = i` of `setPathLevel` is an evolution
touching only `i`. -/
theorem evolves_setPathLevel (i : Nat) (pth : List Nat) (lv : Nat) (ts : List Task) :
    Evolves (fun x => x = i) ts (setPathLevel i pth lv ts) := by
  unfold Evolves setPathLevel
  rw [List.forall₂_map_right_iff]
  refine List.forall₂_same.mpr (fun t _ => ⟨?_, fun hne => if_neg hne⟩)
  by_cases h : t.id = i
  · rw [if_pos h]
    rfl
  · rw [if_neg h]

/-- A row whose id is not rewritten stays in the `setPathLevel` image. -/
theorem mem_setPathLevel_of_ne {ts : List Task} {r : Task} (hr : r ∈ ts) {i : Nat}
    (hne : r.id ≠ i) (pth : List Nat) (lv : Nat) : r ∈ setPathLevel i pth lv ts :=
  List.mem_map.mpr ⟨r, hr, if_neg hne⟩

/-- The rewritten image of the targeted row is in the `setPathLevel` image. -/
theorem mem_setPathLevel_self {ts : List Task} {r : Task} (hr : r ∈ ts) {i : Nat}
    (heq : r.id = i) (pth : List Nat) (lv : Nat) :
    { r with path := pth, level := lv } ∈ setPathLevel i pth lv ts :=
  List.mem_map.mpr ⟨r, hr, if_pos heq⟩

/-- A row of the `setPathLevel` image with a different id was there before. -/
theorem mem_setPathLevel_right {ts : List Task} {r' : Task} {i : Nat} {pth : List Nat}
    {lv : Nat} (hr : r' ∈ setPathLevel i pth lv ts) (hne : r'.id ≠ i) : r' ∈ ts := by
  obtain ⟨pre, hpre, hupd⟩ := List.mem_map.mp hr
  by_cases h : pre.id = i
  · rw [if_pos h] at hupd
    rw [← hupd] at hne
    exact absurd h hne
  · rw [if_neg h] at hupd
    rw [← hupd]
    exact hpre

/-- A row whose id is not rewritten stays in the `setParentPathLevel` image. -/
theorem mem_setParentPathLevel_of_ne {ts : List Task} {r : Task} (hr : r ∈ ts) {i : Nat}
    (hne : r.id ≠ i) (par : Option Nat) (pth : List Nat) (lv : Nat) :
    r ∈ setParentPathLevel i par pth lv ts :=
  List.mem_map.mpr ⟨r, hr, if_neg hne⟩

/-- The rewritten image of the moved row is in the `setParentPathLevel` image. -/
theorem mem_setParentPathLevel_self {ts : List Task} {r : Task} (hr : r ∈ ts) {i : Nat}
    (heq : r.id = i) (par : Option Nat) (pth : List Nat) (lv : Nat) :
    { r with parent := par, path := pth, level := lv } ∈ setParentPathLevel i par pth lv ts :=
  List.mem_map.mpr ⟨r, hr, if_pos heq⟩

/-- A row of the `setParentPathLevel` image with a different id was there
before, unchanged. -/
theorem mem_setParentPathLevel_right {ts : List Task} {r' : Task} {i : Nat}
    {par : Option Nat} {pth : List Nat} {lv : Nat}
    (hr : r' ∈ setParentPathLevel i par pth lv ts) (hne : r'.id ≠ i) : r' ∈ ts := by
  obtain ⟨pre, hpre, hupd⟩ := List.mem_map.mp hr
  by_cases h : pre.id = i
  · rw [if_pos h] at hupd
    rw [← hupd] at hne
    exact absurd h hne
  · rw [if_neg h] at hupd
    rw [← hupd]
    exact hpre

/-- In the re-parented state every edge into a node other than the moved one
is an old edge. -/
theorem childRel_spl_of_ne {ts : List Task} {i : Nat} {par : Option Nat} {pth : List Nat}
    {lv : Nat} {a b : Nat} (h : childRel (setParentPathLevel i par pth lv ts) a b)
    (hne : b ≠ i) : childRel ts a b := by
  obtain ⟨r, hr, hrid, hrpar⟩ := h
  exact ⟨r, mem_setParentPathLevel_right hr (by rw [hrid]; exact hne), hrid, hrpar⟩

/-- In the re-parented state every edge into the moved node comes from the
new parent. -/
theorem childRel_spl_into {ts : List Task} {i p : Nat} {pth : List Nat} {lv : Nat}
    {a : Nat} (h : childRel (setParentPathLevel i (some p) pth lv ts) a i) : a = p := by
  obtain ⟨r, hr, hrid, hrpar⟩ := h
  obtain ⟨pre, _, hupd⟩ := List.mem_map.mp hr
  by_cases hpi : pre.id = i
  · rw [if_pos hpi] at hupd
    rw [← hupd] at hrpar
    exact (Option.some.inj hrpar).symm
  · rw [if_neg hpi] at hupd
    rw [← hupd] at hrid
    exact absurd hrid hpi

/-- In the root-detached state no edge enters the moved node. -/
theorem childRel_sroot_into {ts : List Task} {i : Nat} {pth : List Nat} {lv : Nat}
    {a : Nat} (h : childRel (setParentPathLevel i none pth lv ts) a i) : False := by
  obtain ⟨r, hr, hrid, hrpar⟩ := h
  obtain ⟨pre, _, hupd⟩ := List.mem_map.mp hr
  by_cases hpi : pre.id = i
  · rw [if_pos hpi] at hupd
    rw [← hupd] at hrpar
    cases hrpar
  · rw [if_neg hpi] at hupd
    rw [← hupd] at hrid
    exact hpi hrid

/-- The root-detached state only has old edges, none entering the moved node. -/
theorem childRel_sroot_sub {ts : List Task} {i : Nat} {pth : List Nat} {lv : Nat}
    {a b : Nat} (h : childRel (setParentPathLevel i none pth lv ts) a b) :
    childRel ts a b ∧ b ≠ i := by
  have hbne : b ≠ i := fun hcon => childRel_sroot_into (hcon ▸ h)
  exact ⟨childRel_spl_of_ne h hbne, hbne⟩

/-- The moved row's new edge from its new parent. -/
theorem childRel_spl_self {ts : List Task} {r : Task} (hr : r ∈ ts) {i : Nat}
    (heq : r.id = i) (p : Nat) (pth : List Nat) (lv : Nat) :
    childRel (setParentPathLevel i (some p) pth lv ts) p i :=
  ⟨{ r with parent := some p, path := pth, level := lv },
    mem_setParentPathLevel_self hr heq _ _ _, heq, rfl⟩

/-- Under the invariant a child's path is one longer than its parent's. -/
theorem childRel_path_len {ts : List Task} (h : Inv ts) {a b : Nat}
    (hab : childRel ts a b) :
    ∃ ra ∈ ts, ∃ rb ∈ ts, ra.id = a ∧ rb.id = b ∧
      rb.path.length = ra.path.length + 1 := by
  obtain ⟨rb, hrb, hrbid, hrbpar⟩ := hab
  have hok := h.2 rb hrb
  rw [OkAt, hrbpar] at hok
  obtain ⟨p, hp, hpid, hpath, _⟩ := hok
  exact ⟨p, hp, rb, hrb, hpid, hrbid, by rw [hpath]; simp⟩

/-- Under the invariant path lengths strictly grow down parent chains. -/
theorem reach_path_len {ts : List Task} (h : Inv ts) {a : Nat} :
    ∀ {b : Nat}, ReachP ts a b →
      ∀ ra ∈ ts, ∀ rb ∈ ts, ra.id = a → rb.id = b →
        ra.path.length < rb.path.length := by
  intro b hab
  induction hab with
  | single hstep =>
    intro ra hra rb hrb hraid hrbid
    obtain ⟨ra2, hra2, rb2, hrb2, hra2id, hrb2id, hlen⟩ := childRel_path_len h hstep
    rw [row_eq_of_id h.1 hra hra2 (by rw [hraid, hra2id]),
        row_eq_of_id h.1 hrb hrb2 (by rw [hrbid, hrb2id])]
    omega
  | tail _ hbc ih =>
    intro ra hra rc hrc hraid hrcid
    obtain ⟨rb2, hrb2, rc2, hrc2, hrb2id, hrc2id, hlen⟩ := childRel_path_len h hbc
    have h1 := ih ra hra rb2 hrb2 hraid hrb2id
    rw [row_eq_of_id h.1 hrc hrc2 (by rw [hrcid, hrc2id])]
    omega

/-- Under the invariant the parent graph is acyclic. -/
theorem acyclicT_of_inv {ts : List Task} (h : Inv ts) : AcyclicT ts := by
  intro x hx
  obtain ⟨c, hxc, _⟩ := transGen_head_decomp hx
  obtain ⟨rc, hrc, _, hrcpar⟩ := hxc
  have hok := h.2 rc hrc
  rw [OkAt, hrcpar] at hok
  obtain ⟨rx, hrx, hrxid, _, _⟩ := hok
  have hlt := reach_path_len h hx rx hrx rx hrx hrxid hrxid
  omega

/-- Under the invariant a row's id closes its own path. -/
theorem self_mem_path {ts : List Task} (h : Inv ts) {r : Task} (hr : r ∈ ts) :
    r.id ∈ r.path := by
  have hok := h.2 r hr
  cases hpar : r.parent with
  | none =>
    rw [OkAt, hpar] at hok
    rw [hok.1]
    exact List.mem_singleton_self _
  | some q =>
    rw [OkAt, hpar] at hok
    obtain ⟨p, _, _, hpath, _⟩ := hok
    rw [hpath]
    simp

/-- With unique ids, looking a member row up by id finds that row. -/
theorem find?_id_eq {ts : List Task} (hnd : (idsOf ts).Nodup) {r : Task} (hr : r ∈ ts)
    {i : Nat} (hid : r.id = i) :
    ts.find? (fun t => decide (t.id = i)) = some r := by
  cases hfind : ts.find? (fun t => decide (t.id = i)) with
  | none =>
    rw [List.find?_eq_none] at hfind
    have hc := hfind r hr
    simp at hc
    exact absurd hid hc
  | some r2 =>
    have hmem := List.mem_of_find?_eq_some hfind
    have hpred := List.find?_some hfind
    simp at hpred
    rw [row_eq_of_id hnd hmem hr (by rw [hpred, hid])]

/-- Splitting a reflexive-transitive chain over a graph enriched with one
special edge `p → t`. -/
theorem rtg_split {α : Type} {r : α → α → Prop} {p t : α} {x y : α}
    (h : Relation.ReflTransGen (fun a b => r a b ∨ (a = p ∧ b = t)) x y) :
    Relation.ReflTransGen r x y ∨
      (Relation.ReflTransGen (fun a b => r a b ∨ (a = p ∧ b = t)) x p ∧
       Relation.ReflTransGen (fun a b => r a b ∨ (a = p ∧ b = t)) t y) := by
  induction h with
  | refl => exact Or.inl Relation.ReflTransGen.refl
  | tail _ hstep ih =>
    rcases hstep with hr | ⟨hyp, hzt⟩
    · rcases ih with h1 | ⟨h1, h2⟩
      · exact Or.inl (h1.tail hr)
      · exact Or.inr ⟨h1, h2.tail (Or.inl hr)⟩
    · subst hyp
      subst hzt
      rcases ih with h1 | ⟨h1, _⟩
      · exact Or.inr ⟨h1.mono (fun a b hab => Or.inl hab), Relation.ReflTransGen.refl⟩
      · exact Or.inr ⟨h1, Relation.ReflTransGen.refl⟩

/-- A cycle in the enriched graph yields a cycle of old edges or a cycle
through the special edge's endpoint. -/
theorem transGen_cycle_split {α : Type} {r : α → α → Prop} {p t : α} {x : α}
    (h : Relation.TransGen (fun a b => r a b ∨ (a = p ∧ b = t)) x x) :
    (∃ z, Relation.TransGen r z z) ∨
      Relation.TransGen (fun a b => r a b ∨ (a = p ∧ b = t)) t t := by
  obtain ⟨c, hxc, hcx⟩ := transGen_head_decomp h
  rcases rtg_split hcx with h1 | ⟨h1, h2⟩
  · rcases hxc with hr | ⟨hxp, hct⟩
    · exact Or.inl ⟨x, Relation.TransGen.head' hr h1⟩
    · subst hxp
      subst hct
      exact Or.inr (Relation.TransGen.tail'
        (h1.mono (fun a b hab => Or.inl hab)) (Or.inr ⟨rfl, rfl⟩))
  · have h3 := (h2.tail hxc).trans h1
    exact Or.inr (Relation.TransGen.tail' h3 (Or.inr ⟨rfl, rfl⟩))

/-- The walk `udpGo` hits the recursion bound whenever one of the listed
children can reach a parent-link cycle, provided the fuel-level recursion
does. -/
theorem udpGo_none (fuel : Nat)
    (hnone : ∀ (pid : Nat) (pp : List Nat) (pl : Nat) (ts : List Task),
      (∃ x, Relation.ReflTransGen (childRel ts) pid x ∧ ReachP ts x x) →
      update_descendants_paths fuel pid pp pl ts = none) :
    ∀ (ds : List Task) (pp : List Nat) (pl : Nat) (ts : List Task),
      (∃ d ∈ ds, ∃ x, Relation.ReflTransGen (childRel ts) d.id x ∧ ReachP ts x x) →
      udpGo (update_descendants_paths fuel) ds pp pl ts = none := by
  intro ds
  induction ds with
  | nil =>
    intro pp pl ts h
    obtain ⟨d, hd, _⟩ := h
    cases hd
  | cons d ds ih =>
    intro pp pl ts h
    rw [udpGo]
    obtain ⟨d0, hd0, x, hrtg, hcyc⟩ := h
    rcases List.mem_cons.mp hd0 with heq | hd0tl
    · have hcore1 := setPathLevel_coreOf d.id (pp ++ [d.id]) (pl + 1) ts
      have hn := hnone d.id (pp ++ [d.id]) (pl + 1)
        (setPathLevel d.id (pp ++ [d.id]) (pl + 1) ts)
        ⟨x, (rtg_iff_core hcore1 d.id x).mpr (heq ▸ hrtg),
          (reachP_iff_core hcore1 x x).mpr hcyc⟩
      rw [hn]
    · cases hr : update_descendants_paths fuel d.id (pp ++ [d.id]) (pl + 1)
          (setPathLevel d.id (pp ++ [d.id]) (pl + 1) ts) with
      | none => rfl
      | some ts2 =>
        have hcore2 : ts2.map coreOf = ts.map coreOf :=
          (udp_core fuel _ _ _ _ _ hr).trans (setPathLevel_coreOf _ _ _ _)
        exact ih pp pl ts2 ⟨d0, hd0tl, x,
          (rtg_iff_core hcore2 d0.id x).mpr hrtg,
          (reachP_iff_core hcore2 x x).mpr hcyc⟩

/-- `update_descendants_paths` runs out of fuel whenever its start can reach
a parent-link cycle, for every amount of fuel: the model of the Python
recursion that never terminates. -/
theorem udp_none_of_cycle :
    ∀ (fuel pid : Nat) (pp : List Nat) (pl : Nat) (ts : List Task),
      (∃ x, Relation.ReflTransGen (childRel ts) pid x ∧ ReachP ts x x) →
      update_descendants_paths fuel pid pp pl ts = none := by
  intro fuel
  induction fuel with
  | zero => intro pid pp pl ts _; exact udp_zero _ _ _ _
  | succ fuel ih =>
    intro pid pp pl ts h
    rw [udp_succ]
    obtain ⟨x, hrtg, hcyc⟩ := h
    rcases Relation.reflTransGen_iff_eq_or_transGen.mp hrtg with heq | htg
    · subst heq
      obtain ⟨c, hstep, hrest⟩ := transGen_head_decomp hcyc
      obtain ⟨rc, hrc, hrcid, hrcpar⟩ := hstep
      refine udpGo_none fuel ih _ pp pl ts ⟨rc, ?_, x, ?_, hcyc⟩
      · rw [List.mem_filter]
        exact ⟨hrc, by simp [hrcpar]⟩
      · rw [hrcid]
        exact hrest
    · obtain ⟨c, hstep, hrest⟩ := transGen_head_decomp htg
      obtain ⟨rc, hrc, hrcid, hrcpar⟩ := hstep
      refine udpGo_none fuel ih _ pp pl ts ⟨rc, ?_, x, ?_, hcyc⟩
      · rw [List.mem_filter]
        exact ⟨hrc, by simp [hrcpar]⟩
      · rw [hrcid]
        exact hrest

/-- Soundness of the walk `udpGo` over a list of direct children of `pid`:
the walk only rewrites rows strictly below the listed children, and in the
new state every such row satisfies the row invariant — provided the
fuel-level recursion does the same below a single anchored parent. -/
theorem udpGo_sound (fuel : Nat)
    (hA : ∀ (pid : Nat) (pp : List Nat) (pl : Nat) (ts ts' : List Task),
      (idsOf ts).Nodup → AcyclicT ts →
      (∃ ra ∈ ts, ra.id = pid ∧ ra.path = pp ∧ ra.level = pl) →
      update_descendants_paths fuel pid pp pl ts = some ts' →
      Evolves (fun x => ReachP ts pid x) ts ts' ∧
        ∀ r' ∈ ts', ReachP ts pid r'.id → OkAt ts' r') :
    ∀ (ds : List Task) (pid : Nat) (pp : List Nat) (pl : Nat) (ts ts' : List Task),
      (idsOf ts).Nodup → AcyclicT ts →
      (∃ ra ∈ ts, ra.id = pid ∧ ra.path = pp ∧ ra.level = pl) →
      (∀ d ∈ ds, childRel ts pid d.id) →
      (idsOf ds).Nodup →
      udpGo (update_descendants_paths fuel) ds pp pl ts = some ts' →
      Evolves (fun x => ∃ d ∈ ds, x = d.id ∨ ReachP ts d.id x) ts ts' ∧
        ∀ r' ∈ ts', (∃ d ∈ ds, r'.id = d.id ∨ ReachP ts d.id r'.id) → OkAt ts' r' := by
  intro ds
  induction ds with
  | nil =>
    intro pid pp pl ts ts' hnd hacy hanchor hds hdsnd h
    cases h
    refine ⟨evolves_refl _ _, ?_⟩
    rintro r' _ ⟨d, hd, _⟩
    cases hd
  | cons d ds ih =>
    intro pid pp pl ts ts' hnd hacy hanchor hds hdsnd h
    rw [udpGo] at h
    cases hrec : update_descendants_paths fuel d.id (pp ++ [d.id]) (pl + 1)
        (setPathLevel d.id (pp ++ [d.id]) (pl + 1) ts) with
    | none => rw [hrec] at h; cases h
    | some ts2 =>
      rw [hrec] at h
      have hdedge : childRel ts pid d.id := hds d (List.mem_cons_self _ _)
      obtain ⟨rd, hrd, hrdid, hrdpar⟩ := hds d (List.mem_cons_self _ _)
      have hcore1 := setPathLevel_coreOf d.id (pp ++ [d.id]) (pl + 1) ts
      have hnd1 : (idsOf (setPathLevel d.id (pp ++ [d.id]) (pl + 1) ts)).Nodup := by
        rw [ids_of_core_eq hcore1]
        exact hnd
      have hacy1 : AcyclicT (setPathLevel d.id (pp ++ [d.id]) (pl + 1) ts) :=
        acyclicT_of_core hcore1.symm hacy
      have hanchor1 : ∃ ra ∈ setPathLevel d.id (pp ++ [d.id]) (pl + 1) ts,
          ra.id = d.id ∧ ra.path = pp ++ [d.id] ∧ ra.level = pl + 1 :=
        ⟨{ rd with path := pp ++ [d.id], level := pl + 1 },
          mem_setPathLevel_self hrd hrdid _ _, hrdid, rfl, rfl⟩
      obtain ⟨hE1, hK1⟩ := hA d.id (pp ++ [d.id]) (pl + 1) _ ts2 hnd1 hacy1 hanchor1 hrec
      have hreach1 : ∀ x, ReachP (setPathLevel d.id (pp ++ [d.id]) (pl + 1) ts) d.id x ↔
          ReachP ts d.id x := fun x => reachP_iff_core hcore1 d.id x
      have hE1' : Evolves (fun x => ReachP ts d.id x)
          (setPathLevel d.id (pp ++ [d.id]) (pl + 1) ts) ts2 :=
        evolves_mono (fun x hx => (hreach1 x).mp hx) hE1
      have hcore2 : ts2.map coreOf = ts.map coreOf := (evolves_coreOf hE1).trans hcore1
      have hnd2 : (idsOf ts2).Nodup := by
        rw [ids_of_core_eq hcore2]
        exact hnd
      have hacy2 : AcyclicT ts2 := acyclicT_of_core hcore2.symm hacy
      have hiff2 : ∀ a x, ReachP ts2 a x ↔ ReachP ts a x :=
        fun a x => reachP_iff_core hcore2 a x
      obtain ⟨ra, hra, hraid, hrapath, hralvl⟩ := hanchor
      have hpid_ne : pid ≠ d.id := by
        intro hcon
        exact hacy d.id (Relation.TransGen.single (hcon ▸ hdedge))
      have hnotreach_pid : ¬ ReachP ts d.id pid := by
        intro hcon
        exact hacy pid (Relation.TransGen.head hdedge hcon)
      have hra1 : ra ∈ setPathLevel d.id (pp ++ [d.id]) (pl + 1) ts :=
        mem_setPathLevel_of_ne hra (by rw [hraid]; exact hpid_ne) _ _
      have hra2 : ra ∈ ts2 :=
        evolves_mem_left hE1' hra1 (by rw [hraid]; exact hnotreach_pid)
      have hanchor2 : ∃ r2 ∈ ts2, r2.id = pid ∧ r2.path = pp ∧ r2.level = pl :=
        ⟨ra, hra2, hraid, hrapath, hralvl⟩
      have hds2 : ∀ d' ∈ ds, childRel ts2 pid d'.id := fun d' hd' =>
        (childRel_iff_core hcore2 pid d'.id).mpr (hds d' (List.mem_cons_of_mem _ hd'))
      have hdne : d.id ∉ ds.map fun t => t.id := by
        have hcons := hdsnd
        simp only [idsOf, List.map_cons, List.nodup_cons] at hcons
        exact hcons.1
      have hdsnd2 : (idsOf ds).Nodup := by
        have hcons := hdsnd
        simp only [idsOf, List.map_cons, List.nodup_cons] at hcons
        simp only [idsOf]
        exact hcons.2
      obtain ⟨hE2, hK2⟩ := ih pid pp pl ts2 ts' hnd2 hacy2 hanchor2 hds2 hdsnd2 h
      have hcore3 : ts'.map coreOf = ts.map coreOf := (evolves_coreOf hE2).trans hcore2
      have hnd' : (idsOf ts').Nodup := by
        rw [ids_of_core_eq hcore3]
        exact hnd
      have hnol : ∀ dA dB : Nat, childRel ts pid dA → childRel ts pid dB →
          ¬ ReachP ts dA dB := by
        intro dA dB hA2 hB2 hreach
        cases hreach with
        | single hstep =>
          have h0 := parent_unique hnd hstep hB2
          rw [h0] at hA2
          exact hacy pid (Relation.TransGen.single hA2)
        | tail hpre hstep =>
          have h0 := parent_unique hnd hstep hB2
          rw [h0] at hpre
          exact hacy pid (Relation.TransGen.head hA2 hpre)
      have hdisj : ∀ y : Nat, (y = d.id ∨ ReachP ts d.id y) →
          ¬ ∃ d' ∈ ds, y = d'.id ∨ ReachP ts2 d'.id y := by
        rintro y hy ⟨d', hd', hcase⟩
        have hd'edge : childRel ts pid d'.id := hds d' (List.mem_cons_of_mem _ hd')
        have hdd' : d.id ≠ d'.id := by
          intro hcon
          exact hdne (by rw [hcon]; exact List.mem_map_of_mem _ hd')
        rcases hcase with heq | hreach
        · subst heq
          rcases hy with heq2 | hreach2
          · exact hdd' heq2.symm
          · exact hnol d.id d'.id hdedge hd'edge hreach2
        · have hreachts := (hiff2 d'.id y).mp hreach
          rcases hy with heq2 | hreachy
          · rw [heq2] at hreachts
            exact hnol d'.id d.id hd'edge hdedge hreachts
          · rcases reach_comparable hnd hreachy hreachts with heq3 | h3 | h3
            · exact hdd' heq3
            · exact hnol d.id d'.id hdedge hd'edge h3
            · exact hnol d'.id d.id hd'edge hdedge h3
      have hpiduntouch : ¬ ∃ d' ∈ ds, pid = d'.id ∨ ReachP ts2 d'.id pid := by
        rintro ⟨d', hd', hcase2⟩
        have hd'edge : childRel ts pid d'.id := hds d' (List.mem_cons_of_mem _ hd')
        rcases hcase2 with heq4 | hreach4
        · rw [← heq4] at hd'edge
          exact hacy pid (Relation.TransGen.single hd'edge)
        · exact hacy pid (Relation.TransGen.head hd'edge ((hiff2 d'.id pid).mp hreach4))
      constructor
      · have hstep1 : Evolves (fun x => x = d.id ∨ ReachP ts d.id x) ts ts2 :=
          evolves_trans (evolves_setPathLevel d.id (pp ++ [d.id]) (pl + 1) ts) hE1'

        refine evolves_mono ?_ (evolves_trans hstep1 hE2)
        rintro x (h4 | ⟨d', hd', hcase⟩)
        · rcases h4 with heq | hreach
          · exact ⟨d, List.mem_cons_self _ _, Or.inl heq⟩
          · exact ⟨d, List.mem_cons_self _ _, Or.inr hreach⟩
        · refine ⟨d', List.mem_cons_of_mem _ hd', ?_⟩
          rcases hcase with h4 | h4
          · exact Or.inl h4
          · exact Or.inr ((hiff2 d'.id x).mp h4)
      · rintro r' hr' ⟨d0, hd0, hcase⟩
        rcases List.mem_cons.mp hd0 with heq0 | hd0tl
        · subst heq0
          rcases hcase with heqid | hreachid
          · have hmem1 : { rd with path := pp ++ [d0.id], level := pl + 1 } ∈
                setPathLevel d0.id (pp ++ [d0.id]) (pl + 1) ts :=
              mem_setPathLevel_self hrd hrdid _ _
            have hmem2 : { rd with path := pp ++ [d0.id], level := pl + 1 } ∈ ts2 :=
              evolves_mem_left hE1' hmem1
                (by dsimp only; rw [hrdid]; exact fun hcon => hacy d0.id hcon)
            have hmem3 : { rd with path := pp ++ [d0.id], level := pl + 1 } ∈ ts' :=
              evolves_mem_left hE2 hmem2
                (by dsimp only; rw [hrdid]; exact hdisj d0.id (Or.inl rfl))
            have hr'eq : r' = { rd with path := pp ++ [d0.id], level := pl + 1 } :=
              row_eq_of_id hnd' hr' hmem3 (by dsimp only; rw [heqid, hrdid])
            have hra3 : ra ∈ ts' :=
              evolves_mem_left hE2 hra2 (by rw [hraid]; exact hpiduntouch)
            rw [hr'eq, OkAt]
            dsimp only
            rw [hrdpar]
            exact ⟨ra, hra3, hraid, by rw [hrapath, hrdid], by rw [hralvl]⟩
          · have hnott : ¬ ∃ d' ∈ ds, r'.id = d'.id ∨ ReachP ts2 d'.id r'.id :=
              hdisj r'.id (Or.inr hreachid)
            have hr'2 : r' ∈ ts2 := evolves_mem_right hE2 hr' hnott
            have hok2 : OkAt ts2 r' := hK1 r' hr'2 ((hreach1 r'.id).mpr hreachid)
            cases hpar : r'.parent with
            | none =>
              rw [OkAt, hpar] at hok2 ⊢
              exact hok2
            | some q =>
              rw [OkAt, hpar] at hok2
              obtain ⟨pr, hprmem, hprid, hprpath, hprlvl⟩ := hok2
              have hqedge : childRel ts2 q r'.id := ⟨r', hr'2, rfl, hpar⟩
              have hqreach : q = d0.id ∨ ReachP ts d0.id q := by
                cases hreachid with
                | single hstep =>
                  have hq2 : childRel ts q r'.id := (childRel_iff_core hcore2 q r'.id).mp hqedge
                  exact Or.inl (parent_unique hnd hq2 hstep)
                | tail hpre hstep =>
                  have hq2 : childRel ts q r'.id := (childRel_iff_core hcore2 q r'.id).mp hqedge
                  have hqm := parent_unique hnd hq2 hstep
                  refine Or.inr ?_
                  rw [hqm]
                  exact hpre
              have hprq : ¬ ∃ d' ∈ ds, pr.id = d'.id ∨ ReachP ts2 d'.id pr.id := by
                rw [hprid]
                exact hdisj q hqreach
              have hpr3 : pr ∈ ts' := evolves_mem_left hE2 hprmem hprq
              rw [OkAt, hpar]
              exact ⟨pr, hpr3, hprid, hprpath, hprlvl⟩
        · refine hK2 r' hr' ⟨d0, hd0tl, ?_⟩
          rcases hcase with h4 | h4
          · exact Or.inl h4
          · exact Or.inr ((hiff2 d0.id r'.id).mpr h4)

/-- Soundness of `update_descendants_paths`: on success it only rewrites
rows strictly below `pid`, and every such row satisfies the path/level row
invariant in the new state. -/
theorem udp_sound :
    ∀ (fuel pid : Nat) (pp : List Nat) (pl : Nat) (ts ts' : List Task),
      (idsOf ts).Nodup → AcyclicT ts →
      (∃ ra ∈ ts, ra.id = pid ∧ ra.path = pp ∧ ra.level = pl) →
      update_descendants_paths fuel pid pp pl ts = some ts' →
      Evolves (fun x => ReachP ts pid x) ts ts' ∧
        ∀ r' ∈ ts', ReachP ts pid r'.id → OkAt ts' r' := by
  intro fuel
  induction fuel with
  | zero =>
    intro pid pp pl ts ts' _ _ _ h
    rw [udp_zero] at h
    cases h
  | succ fuel ih =>
    intro pid pp pl ts ts' hnd hacy hanchor h
    rw [udp_succ] at h
    have hds : ∀ d ∈ ts.filter (fun t => decide (t.parent = some pid)),
        childRel ts pid d.id := by
      intro d hd
      rw [List.mem_filter] at hd
      exact ⟨d, hd.1, rfl, of_decide_eq_true hd.2⟩
    have hdsnd : (idsOf (ts.filter fun t => decide (t.parent = some pid))).Nodup := by
      have hsub : (ts.filter fun t => decide (t.parent = some pid)).Sublist ts :=
        List.filter_sublist _
      have hnd2 : (ts.map fun t => t.id).Nodup := hnd
      exact (hsub.map fun t => t.id).nodup hnd2
    obtain ⟨hE, hK⟩ := udpGo_sound fuel ih _ pid pp pl ts ts' hnd hacy hanchor hds hdsnd h
    constructor
    · refine evolves_mono ?_ hE
      rintro x ⟨d, hd, hcase⟩
      have hdedge := hds d hd
      rcases hcase with heq | hreach
      · rw [heq]
        exact Relation.TransGen.single hdedge
      · exact Relation.TransGen.head hdedge hreach
    · intro r' hr' hreach
      refine hK r' hr' ?_
      obtain ⟨c, hstep, hrest⟩ := transGen_head_decomp hreach
      obtain ⟨rc, hrc, hrcid, hrcpar⟩ := hstep
      refine ⟨rc, ?_, ?_⟩
      · rw [List.mem_filter]
        exact ⟨hrc, by simp [hrcpar]⟩
      · rcases Relation.reflTransGen_iff_eq_or_transGen.mp hrest with heq | htg
        · refine Or.inl ?_
          rw [heq, hrcid]
        · refine Or.inr ?_
          rw [hrcid]
          exact htg

/-- The row invariant only reads rows it names, so it survives appending. -/
theorem okAt_append {ts : List Task} {r : Task} (h : OkAt ts r) (more : List Task) :
    OkAt (ts ++ more) r := by
  cases hpar : r.parent with
  | none =>
    rw [OkAt, hpar] at h ⊢
    exact h
  | some q =>
    rw [OkAt, hpar] at h ⊢
    obtain ⟨p, hp, rest⟩ := h
    exact ⟨p, List.mem_append_left _ hp, rest⟩

/-- `add_task` with a fresh row id preserves the invariant: the new root's
path is its own id stamped after the insert, its level 0. -/
theorem inv_add_task {ts : List Task} (h : Inv ts) (lid uid : Nat) (content : String)
    {nid : Nat} (hfresh : nid ∉ idsOf ts) :
    Inv (add_task ts lid uid content nid) := by
  unfold add_task
  constructor
  · simp only [idsOf, List.map_append, List.nodup_append, List.map_cons, List.map_nil]
    refine ⟨h.1, List.nodup_singleton _, ?_⟩
    intro a ha hb
    rw [List.mem_singleton] at hb
    subst hb
    exact hfresh ha
  · intro r hr
    rcases List.mem_append.mp hr with hin | hnew
    · exact okAt_append (h.2 r hin) _
    · rw [List.mem_singleton] at hnew
      subst hnew
      rw [OkAt]
      exact ⟨rfl, rfl⟩

/-- `create_subtask` with a fresh row id preserves the invariant: the new
child's path extends the found parent's path, its level is one deeper. -/
theorem inv_create_subtask {ts : List Task} (h : Inv ts) (uid pid : Nat)
    (content : String) {nid : Nat} (hfresh : nid ∉ idsOf ts) {out : List Task}
    (hout : create_subtask ts uid pid content nid = some out) : Inv out := by
  rw [create_subtask] at hout
  cases hfind : ts.find? (fun t => decide (t.id = pid ∧ t.userId = uid)) with
  | none =>
    rw [hfind] at hout
    cases hout
  | some pt =>
    rw [hfind] at hout
    cases hout
    have hptmem := List.mem_of_find?_eq_some hfind
    have hptpred := List.find?_some hfind
    simp at hptpred
    constructor
    · simp only [idsOf, List.map_append, List.nodup_append, List.map_cons, List.map_nil]
      refine ⟨h.1, List.nodup_singleton _, ?_⟩
      intro a ha hb
      rw [List.mem_singleton] at hb
      subst hb
      exact hfresh ha
    · intro r hr
      rcases List.mem_append.mp hr with hin | hnew
      · exact okAt_append (h.2 r hin) _
      · rw [List.mem_singleton] at hnew
        subst hnew
        rw [OkAt]
        exact ⟨pt, List.mem_append_left _ hptmem, hptpred.1, rfl, rfl⟩

/-- `move_task` preserves the invariant: the committed table on success and
the rolled-back table on any error both satisfy it.  In particular the
descendant cycle the reversed `is_descendant` check misses cannot corrupt
the store: the recursive fixup never terminates on it and the transaction
rolls back. -/
theorem inv_move_task {ts : List Task} (h : Inv ts) (uid id : Nat) (operation : String)
    (npid : Option Nat) : Inv (move_task_result ts uid id operation npid) := by
  have hgen : ∀ ts2, move_task ts uid id operation npid = .ok ts2 → Inv ts2 := by
    intro ts2 hok
    rw [move_task.eq_def] at hok
    cases hfind : ts.find? (fun t => decide (t.id = id ∧ t.userId = uid)) with
    | none =>
      rw [hfind] at hok
      cases hok
    | some t0 =>
      rw [hfind] at hok
      dsimp only at hok
      have ht0mem := List.mem_of_find?_eq_some hfind
      have ht0pred := List.find?_some hfind
      simp at ht0pred
      by_cases hop1 : operation = "make_subtask" ∧ npid ≠ none
      · rw [if_pos hop1] at hok
        cases npid with
        | none =>
          cases hok
          exact h
        | some pid =>
          dsimp only at hok
          cases hfp : ts.find? (fun t => decide (t.id = pid ∧ t.userId = uid)) with
          | none =>
            rw [hfp] at hok
            cases hok
          | some np =>
            rw [hfp] at hok
            dsimp only at hok
            have hnpmem := List.mem_of_find?_eq_some hfp
            have hnppred := List.find?_some hfp
            simp at hnppred
            by_cases hdesc : is_descendant pid id ts = true
            · rw [if_pos hdesc] at hok
              cases hok
            · rw [if_neg hdesc] at hok
              cases hudp : update_descendants_paths (ts.length + 1) id
                  (np.path ++ [id]) (np.level + 1)
                  (setParentPathLevel id (some pid) (np.path ++ [id]) (np.level + 1) ts) with
              | none =>
                rw [hudp] at hok
                cases hok
              | some t2 =>
                rw [hudp] at hok
                cases hok
                set ts1 := setParentPathLevel id (some pid) (np.path ++ [id])
                  (np.level + 1) ts with hts1
                have hacy := acyclicT_of_inv h
                have hcheck : pid ∉ t0.path := by
                  intro hcon
                  apply hdesc
                  rw [is_descendant.eq_def, find?_id_eq h.1 ht0mem ht0pred.1]
                  simpa using hcon
                have hpid_ne_id : pid ≠ id := by
                  intro hcon
                  apply hcheck
                  rw [hcon, ← ht0pred.1]
                  exact self_mem_path h ht0mem
                have hnd1 : (idsOf ts1).Nodup := by
                  rw [hts1, ids_of_posCore_eq (setParentPathLevel_posCore _ _ _ _ _)]
                  exact h.1
                by_cases hreach : ReachP ts1 id pid
                · exfalso
                  have hedge : childRel ts1 pid id := by
                    rw [hts1]
                    exact childRel_spl_self ht0mem ht0pred.1 pid _ _
                  have hcyc : ReachP ts1 id id := Relation.TransGen.tail hreach hedge
                  have hn := udp_none_of_cycle (ts.length + 1) id (np.path ++ [id])
                    (np.level + 1) ts1 ⟨id, Relation.ReflTransGen.refl, hcyc⟩
                  rw [hn] at hudp
                  cases hudp
                · have hsub2 : ∀ a b, ((childRel ts a b ∧ b ≠ id) ∨ (a = pid ∧ b = id)) →
                      childRel ts1 a b := by
                    intro a b hab
                    rcases hab with ⟨hab, hbne⟩ | ⟨ha, hb⟩
                    · rw [hts1]
                      obtain ⟨r, hr, hrid, hrpar⟩ := hab
                      exact ⟨r, mem_setParentPathLevel_of_ne hr
                        (by rw [hrid]; exact hbne) _ _ _, hrid, hrpar⟩
                    · rw [ha, hb, hts1]
                      exact childRel_spl_self ht0mem ht0pred.1 pid _ _
                  have hacy1 : AcyclicT ts1 := by
                    intro x hx
                    have hsub : ∀ a b, childRel ts1 a b →
                        (fun a b => (childRel ts a b ∧ b ≠ id) ∨ (a = pid ∧ b = id)) a b := by
                      intro a b hab
                      by_cases hb : b = id
                      · subst hb
                        refine Or.inr ⟨?_, rfl⟩
                        rw [hts1] at hab
                        exact childRel_spl_into hab
                      · refine Or.inl ⟨?_, hb⟩
                        rw [hts1] at hab
                        exact childRel_spl_of_ne hab hb
                    have hx2 := Relation.TransGen.mono hsub hx
                    rcases transGen_cycle_split hx2 with ⟨z, hz⟩ | hcyc2
                    · exact hacy z (Relation.TransGen.mono (fun a b hab => hab.1) hz)
                    · cases hcyc2 with
                      | single hstep =>
                        rcases hstep with ⟨_, hne⟩ | ⟨heq5, _⟩
                        · exact hne rfl
                        · exact hpid_ne_id heq5.symm
                      | tail hpre hstep =>
                        rcases hstep with ⟨_, hne⟩ | ⟨heq5, _⟩
                        · exact hne rfl
                        · rw [heq5] at hpre
                          exact hreach (Relation.TransGen.mono hsub2 hpre)
                  have hanchor1 : ∃ ra ∈ ts1, ra.id = id ∧ ra.path = np.path ++ [id] ∧
                      ra.level = np.level + 1 := by
                    rw [hts1]
                    exact ⟨{ t0 with parent := some pid, path := np.path ++ [id], level := np.level + 1 },
                      mem_setParentPathLevel_self ht0mem ht0pred.1 _ _ _,
                      ht0pred.1, rfl, rfl⟩
                  obtain ⟨hE, hK⟩ := udp_sound (ts.length + 1) id (np.path ++ [id])
                    (np.level + 1) ts1 ts2 hnd1 hacy1 hanchor1 hudp
                  have hnd2 : (idsOf ts2).Nodup := by
                    rw [ids_of_core_eq (evolves_coreOf hE)]
                    exact hnd1
                  refine ⟨hnd2, ?_⟩
                  intro r' hr'
                  by_cases htouch : ReachP ts1 id r'.id
                  · exact hK r' hr' htouch
                  · have hr1 : r' ∈ ts1 := evolves_mem_right hE hr' htouch
                    by_cases hrid : r'.id = id
                    · have hmoved : ({ t0 with parent := some pid, path := np.path ++ [id], level := np.level + 1 } : Task) ∈ ts1 := by
                        rw [hts1]
                        exact mem_setParentPathLevel_self ht0mem ht0pred.1 _ _ _
                      have hr'eq : r' = { t0 with parent := some pid, path := np.path ++ [id], level := np.level + 1 } :=
                        row_eq_of_id hnd1 hr1 hmoved (by dsimp only; rw [hrid, ht0pred.1])
                      have hnp1 : np ∈ ts1 := by
                        rw [hts1]
                        exact mem_setParentPathLevel_of_ne hnpmem
                          (by rw [hnppred.1]; exact hpid_ne_id) _ _ _
                      have hnp2 : np ∈ ts2 := evolves_mem_left hE hnp1
                        (by rw [hnppred.1]; exact hreach)
                      rw [hr'eq, OkAt]
                      dsimp only
                      exact ⟨np, hnp2, hnppred.1, by rw [ht0pred.1], rfl⟩
                    · have hrts : r' ∈ ts := by
                        rw [hts1] at hr1
                        exact mem_setParentPathLevel_right hr1 hrid
                      have hok2 := h.2 r' hrts
                      cases hpar : r'.parent with
                      | none =>
                        rw [OkAt, hpar] at hok2 ⊢
                        exact hok2
                      | some q =>
                        rw [OkAt, hpar] at hok2
                        obtain ⟨p, hp, hpid2, hppath, hplvl⟩ := hok2
                        have hq_ne : q ≠ id := by
                          intro hcon
                          apply htouch
                          refine Relation.TransGen.single ?_
                          rw [hts1]
                          refine ⟨r', mem_setParentPathLevel_of_ne hrts hrid _ _ _, rfl, ?_⟩
                          rw [hpar, hcon]
                        have hp1 : p ∈ ts1 := by
                          rw [hts1]
                          exact mem_setParentPathLevel_of_ne hp
                            (by rw [hpid2]; exact hq_ne) _ _ _
                        have hp_nottouch : ¬ ReachP ts1 id p.id := by
                          rw [hpid2]
                          intro hcon
                          apply htouch
                          refine Relation.TransGen.tail hcon ?_
                          rw [hts1]
                          refine ⟨r', mem_setParentPathLevel_of_ne hrts hrid _ _ _, rfl, ?_⟩
                          rw [hpar]
                        rw [OkAt, hpar]
                        exact ⟨p, evolves_mem_left hE hp1 hp_nottouch, hpid2, hppath, hplvl⟩
      · rw [if_neg hop1] at hok
        by_cases hop2 : operation = "move_to_root"
        · rw [if_pos hop2] at hok
          cases hudp : update_descendants_paths (ts.length + 1) id [id] 0
              (setParentPathLevel id none [id] 0 ts) with
          | none =>
            rw [hudp] at hok
            cases hok
          | some t2 =>
            rw [hudp] at hok
            cases hok
            set ts1 := setParentPathLevel id none [id] 0 ts with hts1
            have hacy := acyclicT_of_inv h
            have hnd1 : (idsOf ts1).Nodup := by
              rw [hts1, ids_of_posCore_eq (setParentPathLevel_posCore _ _ _ _ _)]
              exact h.1
            have hacy1 : AcyclicT ts1 := by
              intro x hx
              refine hacy x (Relation.TransGen.mono ?_ hx)
              intro a b hab
              rw [hts1] at hab
              exact (childRel_sroot_sub hab).1
            have hanchor1 : ∃ ra ∈ ts1, ra.id = id ∧ ra.path = [id] ∧ ra.level = 0 := by
              rw [hts1]
              exact ⟨{ t0 with parent := none, path := [id], level := 0 },
                mem_setParentPathLevel_self ht0mem ht0pred.1 _ _ _, ht0pred.1, rfl, rfl⟩
            obtain ⟨hE, hK⟩ := udp_sound (ts.length + 1) id [id] 0 ts1 ts2
              hnd1 hacy1 hanchor1 hudp
            have hnd2 : (idsOf ts2).Nodup := by
              rw [ids_of_core_eq (evolves_coreOf hE)]
              exact hnd1
            refine ⟨hnd2, ?_⟩
            intro r' hr'
            by_cases htouch : ReachP ts1 id r'.id
            · exact hK r' hr' htouch
            · have hr1 : r' ∈ ts1 := evolves_mem_right hE hr' htouch
              by_cases hrid : r'.id = id
              · have hmoved : ({ t0 with parent := none, path := [id], level := 0 } : Task) ∈ ts1 := by
                  rw [hts1]
                  exact mem_setParentPathLevel_self ht0mem ht0pred.1 _ _ _
                have hr'eq : r' = { t0 with parent := none, path := [id], level := 0 } :=
                  row_eq_of_id hnd1 hr1 hmoved (by dsimp only; rw [hrid, ht0pred.1])
                rw [hr'eq, OkAt]
                dsimp only
                exact ⟨by rw [ht0pred.1], rfl⟩
              · have hrts : r' ∈ ts := by
                  rw [hts1] at hr1
                  exact mem_setParentPathLevel_right hr1 hrid
                have hok2 := h.2 r' hrts
                cases hpar : r'.parent with
                | none =>
                  rw [OkAt, hpar] at hok2 ⊢
                  exact hok2
                | some q =>
                  rw [OkAt, hpar] at hok2
                  obtain ⟨p, hp, hpid2, hppath, hplvl⟩ := hok2
                  have hq_ne : q ≠ id := by
                    intro hcon
                    apply htouch
                    refine Relation.TransGen.single ?_
                    rw [hts1]
                    refine ⟨r', mem_setParentPathLevel_of_ne hrts hrid _ _ _, rfl, ?_⟩
                    rw [hpar, hcon]
                  have hp1 : p ∈ ts1 := by
                    rw [hts1]
                    exact mem_setParentPathLevel_of_ne hp
                      (by rw [hpid2]; exact hq_ne) _ _ _
                  have hp_nottouch : ¬ ReachP ts1 id p.id := by
                    rw [hpid2]
                    intro hcon
                    apply htouch
                    refine Relation.TransGen.tail hcon ?_
                    rw [hts1]
                    refine ⟨r', mem_setParentPathLevel_of_ne hrts hrid _ _ _, rfl, ?_⟩
                    rw [hpar]
                  rw [OkAt, hpar]
                  exact ⟨p, evolves_mem_left hE hp1 hp_nottouch, hpid2, hppath, hplvl⟩
        · rw [if_neg hop2] at hok
          cases hok
          exact h
  cases hmv : move_task ts uid id operation npid with
  | error e =>
    unfold move_task_result
    rw [hmv]
    exact h
  | ok ts2 =>
    unfold move_task_result
    rw [hmv]
    exact hgen ts2 hmv

/-- C2: the hierarchy-writing operations preserve the materialized-path
invariant — unique ids, every root's path its own id at level 0, every
child's path its parent's path extended with its own id at the parent's
level plus one.  `add_task` and `create_subtask` insert consistent rows
when the database hands them a fresh id, and any `move_task` request leaves
a consistent table, whether it commits or rolls back. -/
theorem c2_hierarchy_invariant_preserved (tasks : List Task) (h : Inv tasks) :
    (∀ (list_id user_id new_id : Nat) (content : String), new_id ∉ idsOf tasks →
      Inv (add_task tasks list_id user_id content new_id)) ∧
    (∀ (user_id parent_id new_id : Nat) (content : String) (out : List Task),
      new_id ∉ idsOf tasks →
      create_subtask tasks user_id parent_id content new_id = some out → Inv out) ∧
    (∀ (user_id id : Nat) (operation : String) (new_parent_id : Option Nat),
      Inv (move_task_result tasks user_id id operation new_parent_id)) := by
  refine ⟨?_, ?_, ?_⟩
  · intro lid uid nid content hfresh
    exact inv_add_task h lid uid content hfresh
  · intro uid pid nid content out hfresh hout
    exact inv_create_subtask h uid pid content hfresh hout
  · intro uid id op npid
    exact inv_move_task h uid id op npid

/-- Witness for `c2_hierarchy_invariant_preserved` on the one-root store
`exC2`: inserting root 2, creating subtask 2 under root 1, and detaching
task 1 all leave the invariant intact. -/
theorem c2_witness :
    Inv exC2 ∧
    Inv (add_task exC2 5 9 "b" 2) ∧
    (∃ out, create_subtask exC2 9 1 "c" 2 = some out ∧ Inv out) ∧
    Inv (move_task_result exC2 9 1 "move_to_root" none) := by
  have h : Inv exC2 := by decide
  refine ⟨h, ?_, ?_, ?_⟩
  · exact (c2_hierarchy_invariant_preserved exC2 h).1 5 9 2 "b" (by decide)
  · exact ⟨_, rfl, (c2_hierarchy_invariant_preserved exC2 h).2.1 9 1 2 "c" _ (by decide) rfl⟩
  · exact (c2_hierarchy_invariant_preserved exC2 h).2.2 9 1 "move_to_root" none

end Pomodoro
